import Mathlib

/-!
Verification of the orchestration/integrity subsystem of the
dynamic-cross-origin-constraint repository (multi-agent simulation with a
hash-chained metrics ledger).

The development shallowly embeds the Python sources:

* `backend/app/services/hash_chain.py` — SHA-256 hash chain
  (`canonical_json`, `compute_hash`, `build_chain`, `verify_chain`).
  SHA-256 is implemented bit-faithfully over `Nat` (words are reduced
  mod 2^32).  JSON metrics dictionaries are modelled as association
  lists whose values are primitive literals or one-level objects of
  primitive literals; numeric values are carried as their serialized
  decimal literals (the hash depends only on the serialized form, so no
  floating-point semantics are needed).  `json.loads` is modelled by an
  executable parser `json_loads` for the same fragment: objects with
  string keys, string/number values, one nesting level of objects,
  surrounding whitespace, no escape sequences (well-formedness `wfMetrics`
  restricts strings to plain printable ASCII so that serialization never
  needs escapes, mirroring `ensure_ascii` output on that fragment).
  The parser keeps a number's literal text, whereas Python parses it to a
  value whose re-serialization normalizes the text (`1.230` → `1.23`,
  `1e1` → `10.0`); the two agree textually exactly on canonical integer
  literals (`json.loads` yields an arbitrary-precision `int` printed back
  verbatim by `json.dumps`), a fragment the predicates `intNumLit` /
  `pyStableMetrics` carve out, and statements about externally injected
  `metrics_json` text are scoped to it.  (For blobs the chain itself wrote
  and re-reads, build and verify share one serialization on each side, so
  no such scoping is needed.)
  A raised `json.JSONDecodeError` is modelled by `verify_chain` returning
  `none`.
* `backend/simulation/comm_buffer.py` — `CommBuffer` with `send`,
  `receive`, `receive_all`, `kill`, `restore`, `clear`.  Tensors are
  modelled as `List Int` (only cloning, zeroing and concatenation are
  used, so the scalar type is irrelevant); a Python `dict` is an
  insertion-ordered association list with in-place update.
* `backend/simulation/training/temperature.py` — `get_tau` over `ℝ`
  with `Real.exp` (the one transcendental definition; it is therefore
  not executable, and the theorems about it are closed statements).
* `backend/simulation/training/reward.py` and
  `backend/simulation/protocols.py` — reward functions over `ℚ`.
* `backend/simulation/metrics/inquiry_metrics.py` — the
  query→response coupling metric over `ℚ`.
* `backend/app/services/run_manager.py` — the epoch callback's metric
  defaulting (`setKey`/`setdefaultKey`), the bounded delivery queue with
  drop-oldest backpressure, and the per-epoch ledger persistence.  The
  derived ROI value is a float computation; it is abstracted as an
  arbitrary deterministic function `roiFn` of the metrics (only its
  determinism and the key it is stored under matter for the claims).
* `backend/simulation/engine.py` — for the determinism claim, the epoch
  loop is modelled as a fold of an abstract deterministic epoch body
  (the pluggable Learner/Environment computation) over a state
  initialized from the seed alone (`set_all_seeds(seed)` overwrites any
  prior global RNG state, which is modelled by the initializer ignoring
  the ambient state argument), with the wall-clock `time.time()` value
  of each epoch supplied as an input stream, entering the metrics dict
  only at the "timestamp" key exactly as in `_run_epoch`.
-/

set_option maxRecDepth 100000

/-! ### Characters and small helpers -/

def lbrace : Char := Char.ofNat 123

def rbrace : Char := Char.ofNat 125

def dquote : Char := '\"'

def bslash : Char := '\\'

/-- Whitespace characters skipped by the JSON scanner. -/
def isJsonWs (c : Char) : Bool := c = ' ' || c = '\t' || c = '\n' || c = '\r'

/-! ### SHA-256 over `Nat` (words reduced mod 2^32) -/

def w32 (n : Nat) : Nat := n % 4294967296

def rotr32 (x n : Nat) : Nat := (x >>> n) ||| (w32 (x <<< (32 - n)))

def smallSigma0 (x : Nat) : Nat := (rotr32 x 7) ^^^ (rotr32 x 18) ^^^ (x >>> 3)

def smallSigma1 (x : Nat) : Nat := (rotr32 x 17) ^^^ (rotr32 x 19) ^^^ (x >>> 10)

def bigSigma0 (x : Nat) : Nat := (rotr32 x 2) ^^^ (rotr32 x 13) ^^^ (rotr32 x 22)

def bigSigma1 (x : Nat) : Nat := (rotr32 x 6) ^^^ (rotr32 x 11) ^^^ (rotr32 x 25)

def chWord (x y z : Nat) : Nat := (x &&& y) ^^^ ((x ^^^ 4294967295) &&& z)

def majWord (x y z : Nat) : Nat := (x &&& y) ^^^ (x &&& z) ^^^ (y &&& z)

/-- The 64 SHA-256 round constants (fractional parts of the cube roots of
the first 64 primes), written in decimal. -/
def sha256K : List Nat :=
  [1116352408, 1899447441, 3049323471, 3921009573,
   961987163, 1508970993, 2453635748, 2870763221,
   3624381080, 310598401, 607225278, 1426881987,
   1925078388, 2162078206, 2614888103, 3248222580,
   3835390401, 4022224774, 264347078, 604807628,
   770255983, 1249150122, 1555081692, 1996064986,
   2554220882, 2821834349, 2952996808, 3210313671,
   3336571891, 3584528711, 113926993, 338241895,
   666307205, 773529912, 1294757372, 1396182291,
   1695183700, 1986661051, 2177026350, 2456956037,
   2730485921, 2820302411, 3259730800, 3345764771,
   3516065817, 3600352804, 4094571909, 275423344,
   430227734, 506948616, 659060556, 883997877,
   958139571, 1322822218, 1537002063, 1747873779,
   1955562222, 2024104815, 2227730452, 2361852424,
   2428436474, 2756734187, 3204031479, 3329325298]

/-- The SHA-256 initial hash state, written in decimal. -/
def sha256H0 : List Nat :=
  [1779033703, 3144134277, 1013904242, 2773480762,
   1359893119, 2600822924, 528734635, 1541459225]

/-- Big-endian byte expansion of `v` into `k` bytes. -/
def beBytes : Nat → Nat → List Nat
  | 0, _ => []
  | k + 1, v => beBytes k (v >>> 8) ++ [v % 256]

/-- SHA-256 padding: append 0x80, zero bytes, and the 64-bit bit length. -/
def sha256pad (msg : List Nat) : List Nat :=
  let len := msg.length
  msg ++ [128] ++ List.replicate ((119 - len % 64) % 64) 0 ++ beBytes 8 (8 * len)

/-- Big-endian 32-bit words from a byte list (length a multiple of 4). -/
def bytesToWords : List Nat → List Nat
  | b0 :: b1 :: b2 :: b3 :: rest =>
      ((((b0 <<< 8) ||| b1) <<< 8 ||| b2) <<< 8 ||| b3) :: bytesToWords rest
  | _ => []

/-- Extend a 16-word message block to the 64-word schedule. -/
def extendSchedule : List Nat → Nat → List Nat
  | ws, 0 => ws
  | ws, n + 1 =>
      let t := ws.length
      let w := w32 (smallSigma1 (ws.getD (t - 2) 0) + ws.getD (t - 7) 0 +
                    smallSigma0 (ws.getD (t - 15) 0) + ws.getD (t - 16) 0)
      extendSchedule (ws ++ [w]) n

def sha256round (st : List Nat) (kw : Nat × Nat) : List Nat :=
  match st with
  | [a, b, c, d, e, f, g, h] =>
      let t1 := w32 (h + bigSigma1 e + chWord e f g + kw.1 + kw.2)
      let t2 := w32 (bigSigma0 a + majWord a b c)
      [w32 (t1 + t2), a, b, c, w32 (d + t1), e, f, g]
  | other => other

def sha256block (h : List Nat) (block : List Nat) : List Nat :=
  let ws := extendSchedule block 48
  let st := (sha256K.zip ws).foldl sha256round h
  (h.zip st).map (fun p => w32 (p.1 + p.2))

def sha256blocks : List Nat → List Nat → List Nat
  | h, w0 :: w1 :: w2 :: w3 :: w4 :: w5 :: w6 :: w7 ::
       w8 :: w9 :: w10 :: w11 :: w12 :: w13 :: w14 :: w15 :: rest =>
      sha256blocks
        (sha256block h [w0, w1, w2, w3, w4, w5, w6, w7,
                        w8, w9, w10, w11, w12, w13, w14, w15]) rest
  | h, _ => h

def sha256bytes (msg : List Nat) : List Nat :=
  (sha256blocks sha256H0 (bytesToWords (sha256pad msg))).foldr
    (fun w acc => beBytes 4 w ++ acc) []

def hexNibble (n : Nat) : Char :=
  if n < 10 then Char.ofNat (48 + n) else Char.ofNat (87 + n)

def byteToHex (b : Nat) : List Char := [hexNibble (b >>> 4), hexNibble (b % 16)]

/-- Lowercase hex digest, as produced by `hashlib.sha256(...).hexdigest()`. -/
def sha256hexOfBytes (msg : List Nat) : String :=
  String.mk ((sha256bytes msg).foldr (fun b acc => byteToHex b ++ acc) [])

/-- UTF-8 encoding of one character. -/
def utf8Bytes (c : Char) : List Nat :=
  let n := c.toNat
  if n < 128 then [n]
  else if n < 2048 then [192 + n / 64, 128 + n % 64]
  else if n < 65536 then [224 + n / 4096, 128 + (n / 64) % 64, 128 + n % 64]
  else [240 + n / 262144, 128 + (n / 4096) % 64, 128 + (n / 64) % 64, 128 + n % 64]

def strToBytes (s : String) : List Nat :=
  s.data.foldr (fun c acc => utf8Bytes c ++ acc) []

/-- Model of `hashlib.sha256(payload.encode("utf-8")).hexdigest()`. -/
def sha256hex (payload : String) : String := sha256hexOfBytes (strToBytes payload)

/-! ### JSON metrics model

A metrics dictionary is an insertion-ordered association list.  Values are
primitive literals (numbers carried as their serialized decimal literals,
or strings) or one-level objects of primitives — the fragment the claims
exercise. -/

inductive JPrim where
  | jnum (lit : String)
  | jstr (s : String)
deriving DecidableEq, Repr

inductive JVal where
  | prim (p : JPrim)
  | jobj (l : List (String × JPrim))
deriving DecidableEq, Repr

abbrev Metrics := List (String × JVal)

def lookupKey {α : Type} : List (String × α) → String → Option α
  | [], _ => none
  | (k', v) :: t, k => if k' = k then some v else lookupKey t k

/-! ### Well-formedness of the fragment

`json.dumps(..., ensure_ascii=True)` escapes control and non-ASCII
characters; the model's serializer emits no escapes, so well-formed strings
are restricted to plain printable ASCII without quote or backslash, and
numeric literals to the JSON number grammar. -/

def plainChar (c : Char) : Bool :=
  32 ≤ c.toNat && c.toNat < 127 && c ≠ dquote && c ≠ bslash

def plainStr (s : String) : Bool := s.data.all plainChar

def isNumChar (c : Char) : Bool :=
  c.isDigit || c = '-' || c = '+' || c = '.' || c = 'e' || c = 'E'

def chompDigits (cs : List Char) : List Char × List Char :=
  (cs.takeWhile Char.isDigit, cs.dropWhile Char.isDigit)

/-- The JSON number grammar: `-? (0|[1-9][0-9]*) (\.[0-9]+)? ([eE][+-]?[0-9]+)?`. -/
def validNumLit (cs0 : List Char) : Bool :=
  let cs := match cs0 with
    | c :: t => if c = '-' then t else cs0
    | [] => cs0
  let ip := (chompDigits cs).1
  let r1 := (chompDigits cs).2
  if ip.isEmpty then false
  else if 1 < ip.length && ip.headD '0' = '0' then false
  else
    let r2o : Option (List Char) := match r1 with
      | c :: t =>
          if c = '.' then
            if (chompDigits t).1.isEmpty then none else some (chompDigits t).2
          else some r1
      | [] => some r1
    match r2o with
    | none => false
    | some r2 =>
      match r2 with
      | [] => true
      | e :: t =>
          if e = 'e' || e = 'E' then
            let t2 := match t with
              | s :: t3 => if s = '+' || s = '-' then t3 else t
              | [] => t
            !(chompDigits t2).1.isEmpty && (chompDigits t2).2.isEmpty
          else false

def wfNum (s : String) : Bool := s.data.all isNumChar && validNumLit s.data

def wfPrim : JPrim → Bool
  | .jnum s => wfNum s
  | .jstr s => plainStr s

def wfVal : JVal → Bool
  | .prim p => wfPrim p
  | .jobj l => l.all (fun kv => plainStr kv.1 && wfPrim kv.2)

def wfMetrics (m : Metrics) : Bool :=
  m.all (fun kv => plainStr kv.1 && wfVal kv.2)

/-! ### Normalization-stable numeric literals

The model carries numeric values as their serialized literals, so its
parse→serialize composite is the identity on the literal text.  Python's
`json.loads` instead parses a number to an `int` or `float` value, and
re-serialization prints that value's canonical repr — which rewrites
non-canonical float literals (`"1.230"` → `"1.23"`, `"1e1"` → `"10.0"`).
On canonical *integer* literals the two agree exactly: `json.loads` yields an
arbitrary-precision `int` and `json.dumps` prints it back as the identical
digit string.  The predicates below carve out that fragment; the tamper
claims about injected `metrics_json` text are stated over it, so the model's
verdict provably coincides with the program's. -/

/-- Canonical integer literal: `0`, or `-? [1-9][0-9]*` (no `-0`, no leading
zeros) — exactly the strings on which Python's `loads`/`dumps` round trip is
the textual identity. -/
def intNumLit (cs : List Char) : Bool :=
  match cs with
  | [] => false
  | c :: t =>
      if c = '-' then
        match t with
        | [] => false
        | d :: t2 => (d.isDigit && !(d = '0')) && t2.all Char.isDigit
      else if c = '0' then t.isEmpty
      else c.isDigit && t.all Char.isDigit

def pyStablePrim : JPrim → Bool
  | .jnum s => intNumLit s.data
  | .jstr _ => true

def pyStableVal : JVal → Bool
  | .prim p => pyStablePrim p
  | .jobj l => l.all (fun kv => pyStablePrim kv.2)

/-- Metrics whose canonical serialization is untouched by Python's
parse→re-serialize normalization (all numeric fields are canonical integer
literals). -/
def pyStableMetrics (m : Metrics) : Bool :=
  m.all (fun kv => pyStableVal kv.2)

/-! ### Canonical serialization

`canonical_json(data) = json.dumps(data, sort_keys=True, separators=(",", ":"),
default=str)`: keys sorted (at every nesting level), fixed separators, no
whitespace. -/

/-- Code-point lexicographic comparison of character lists — the string
order Python uses when sorting keys.  (Defined from scratch so that it
reduces inside the kernel.) -/
def charListLe : List Char → List Char → Bool
  | [], _ => true
  | _ :: _, [] => false
  | c1 :: t1, c2 :: t2 =>
      if c1.toNat < c2.toNat then true
      else if c2.toNat < c1.toNat then false
      else charListLe t1 t2

def keyLe {α : Type} (a b : String × α) : Prop :=
  charListLe a.1.data b.1.data = true

instance {α : Type} : DecidableRel (keyLe (α := α)) :=
  fun a b => inferInstanceAs (Decidable (charListLe a.1.data b.1.data = true))

def sortByKey {α : Type} (l : List (String × α)) : List (String × α) :=
  l.insertionSort keyLe

def normalizeVal : JVal → JVal
  | .prim p => .prim p
  | .jobj l => .jobj (sortByKey l)

def normalizeMetrics (m : Metrics) : Metrics :=
  sortByKey (m.map (fun kv => (kv.1, normalizeVal kv.2)))

def renderKey (k : String) : List Char := dquote :: k.data ++ [dquote]

def renderPrim : JPrim → List Char
  | .jnum s => s.data
  | .jstr s => dquote :: s.data ++ [dquote]

def renderInnerMembers : List (String × JPrim) → List Char
  | [] => []
  | [(k, v)] => renderKey k ++ ':' :: renderPrim v
  | (k, v) :: kv :: rest =>
      renderKey k ++ ':' :: renderPrim v ++ ',' :: renderInnerMembers (kv :: rest)

def renderVal : JVal → List Char
  | .prim p => renderPrim p
  | .jobj l => lbrace :: renderInnerMembers l ++ [rbrace]

def renderOuterMembers : List (String × JVal) → List Char
  | [] => []
  | [(k, v)] => renderKey k ++ ':' :: renderVal v
  | (k, v) :: kv :: rest =>
      renderKey k ++ ':' :: renderVal v ++ ',' :: renderOuterMembers (kv :: rest)

/-- Deterministic JSON serialization (`canonical_json` in `hash_chain.py`). -/
def canonical_json (m : Metrics) : String :=
  String.mk (lbrace :: renderOuterMembers (normalizeMetrics m) ++ [rbrace])

/-! ### JSON parsing (`json.loads` on the fragment) -/

def skipWs : List Char → List Char
  | [] => []
  | c :: cs => if isJsonWs c then skipWs cs else c :: cs

/-- Parse the remainder of a string literal (opening quote already consumed).
Escape sequences are outside the modelled fragment and rejected. -/
def parseStrAux : List Char → Option (List Char × List Char)
  | [] => none
  | c :: cs =>
      if c = dquote then some ([], cs)
      else if c = bslash then none
      else match parseStrAux cs with
        | some (acc, rest) => some (c :: acc, rest)
        | none => none

def parseNum (cs : List Char) : Option (String × List Char) :=
  let lit := cs.takeWhile isNumChar
  if lit.isEmpty then none
  else if validNumLit lit then some (String.mk lit, cs.dropWhile isNumChar)
  else none

def parsePrimVal (cs : List Char) : Option (JPrim × List Char) :=
  match cs with
  | c :: cs1 =>
      if c = dquote then
        match parseStrAux cs1 with
        | some (acc, rest) => some (.jstr (String.mk acc), rest)
        | none => none
      else
        match parseNum cs with
        | some (lit, rest) => some (.jnum lit, rest)
        | none => none
  | [] => none

def parseInnerLoop : Nat → List Char → Option (List (String × JPrim) × List Char)
  | 0, _ => none
  | fuel + 1, cs =>
      match skipWs cs with
      | c :: cs1 =>
          if c = dquote then
            match parseStrAux cs1 with
            | some (kAcc, cs2) =>
                match skipWs cs2 with
                | c2 :: cs3 =>
                    if c2 = ':' then
                      match parsePrimVal (skipWs cs3) with
                      | some (v, cs4) =>
                          match skipWs cs4 with
                          | c3 :: cs5 =>
                              if c3 = ',' then
                                match parseInnerLoop fuel cs5 with
                                | some (l, rest) =>
                                    some ((String.mk kAcc, v) :: l, rest)
                                | none => none
                              else if c3 = rbrace then
                                some ([(String.mk kAcc, v)], cs5)
                              else none
                          | [] => none
                      | none => none
                    else none
                | [] => none
            | none => none
          else none
      | [] => none

/-- Parse an object body after the opening brace (inner, primitive values). -/
def parseInnerObj (fuel : Nat) (cs : List Char) : Option (List (String × JPrim) × List Char) :=
  match skipWs cs with
  | c :: cs1 => if c = rbrace then some ([], cs1) else parseInnerLoop fuel cs
  | [] => none

def parseJVal (fuel : Nat) (cs : List Char) : Option (JVal × List Char) :=
  match cs with
  | c :: cs1 =>
      if c = lbrace then
        match parseInnerObj fuel cs1 with
        | some (l, rest) => some (.jobj l, rest)
        | none => none
      else
        match parsePrimVal cs with
        | some (p, rest) => some (.prim p, rest)
        | none => none
  | [] => none

def parseOuterLoop : Nat → List Char → Option (Metrics × List Char)
  | 0, _ => none
  | fuel + 1, cs =>
      match skipWs cs with
      | c :: cs1 =>
          if c = dquote then
            match parseStrAux cs1 with
            | some (kAcc, cs2) =>
                match skipWs cs2 with
                | c2 :: cs3 =>
                    if c2 = ':' then
                      match parseJVal fuel (skipWs cs3) with
                      | some (v, cs4) =>
                          match skipWs cs4 with
                          | c3 :: cs5 =>
                              if c3 = ',' then
                                match parseOuterLoop fuel cs5 with
                                | some (l, rest) =>
                                    some ((String.mk kAcc, v) :: l, rest)
                                | none => none
                              else if c3 = rbrace then
                                some ([(String.mk kAcc, v)], cs5)
                              else none
                          | [] => none
                      | none => none
                    else none
                | [] => none
            | none => none
          else none
      | [] => none

/-- Model of `json.loads` on the fragment: a top-level object, surrounding
whitespace allowed; `none` models a raised `json.JSONDecodeError`.
Number values keep their literal text; Python instead parses them to
`int`/`float` values whose re-serialization normalizes the text, and the
two coincide exactly on the `pyStableMetrics` fragment (canonical integer
literals), to which claims about externally injected blob text are
scoped. -/
def json_loads (s : String) : Option Metrics :=
  match skipWs s.data with
  | c :: cs =>
      if c = lbrace then
        let body : Option (Metrics × List Char) :=
          match skipWs cs with
          | c1 :: cs1 => if c1 = rbrace then some ([], cs1) else parseOuterLoop (cs.length + 1) cs
          | [] => none
        match body with
        | some (m, rest) => if (skipWs rest).isEmpty then some m else none
        | none => none
      else none
  | [] => none

/-! ### Hash chain (`hash_chain.py`) -/

def GENESIS_HASH : String := String.mk (List.replicate 64 '0')

/-- Compute SHA-256 hash for an epoch:
`sha256(f"{prev_hash}|{canonical_json(metrics)}|{run_seed}")`. -/
def compute_hash (prev_hash : String) (metrics : Metrics) (run_seed : Int) : String :=
  sha256hex (prev_hash ++ "|" ++ canonical_json metrics ++ "|" ++ toString run_seed)

structure ChainEntry where
  epoch : JVal
  hash : String
  prev_hash : String
  metrics_json : String
deriving DecidableEq, Repr

/-- The loop body of `build_chain`: `pos` is `len(chain)` so far, `prev` the
running previous hash. -/
def build_chain_aux (run_seed : Int) : Nat → String → List Metrics → List ChainEntry
  | _, _, [] => []
  | pos, prev, m :: ms =>
      let currentHash := compute_hash prev m run_seed
      { epoch := (lookupKey m "epoch").getD (.prim (.jnum (toString pos))),
        hash := currentHash,
        prev_hash := prev,
        metrics_json := canonical_json m } ::
      build_chain_aux run_seed (pos + 1) currentHash ms

/-- Build a full hash chain from epoch metrics. -/
def build_chain (epoch_metrics_list : List Metrics) (run_seed : Int) : List ChainEntry :=
  build_chain_aux run_seed 0 GENESIS_HASH epoch_metrics_list

/-- The loop of `verify_chain`; `none` models an uncaught exception from
`json.loads` on a corrupted `metrics_json` blob. -/
def verify_chain_aux (run_seed : Int) : String → List ChainEntry → Option (Bool × Option JVal)
  | _, [] => some (true, none)
  | prev, entry :: rest =>
      match json_loads entry.metrics_json with
      | none => none
      | some metrics =>
          let expected := compute_hash prev metrics run_seed
          if entry.hash ≠ expected then some (false, some entry.epoch)
          else if entry.prev_hash ≠ prev then some (false, some entry.epoch)
          else verify_chain_aux run_seed entry.hash rest

/-- Verify integrity of a hash chain; returns `(is_valid, first_invalid_epoch)`. -/
def verify_chain (chain : List ChainEntry) (run_seed : Int) : Option (Bool × Option JVal) :=
  verify_chain_aux run_seed GENESIS_HASH chain

/-! ### Communication buffer (`comm_buffer.py`)

Signals are tensors used only through `detach().clone()`, `zeros_like` and
`cat`, so they are modelled as `List Int`; `detach`/`clone` are the identity
on pure values.  The live buffer is a Python dict: an insertion-ordered
association list where assignment to an existing key updates in place. -/

/-- Python dict assignment `d[k] = v`: update in place, else append. -/
def setAssoc {α : Type} : List (String × α) → String → α → List (String × α)
  | [], k, v => [(k, v)]
  | (k', v') :: t, k, v =>
      if k' = k then (k, v) :: t else (k', v') :: setAssoc t k v

structure CommBuffer where
  signal_dim : Nat
  num_agents : Nat
  buffer : List (String × List Int)
  killed : Bool
deriving DecidableEq, Repr

def CommBuffer.mk0 (signal_dim num_agents : Nat) : CommBuffer :=
  { signal_dim := signal_dim, num_agents := num_agents, buffer := [], killed := false }

def CommBuffer.send (st : CommBuffer) (agent_name : String) (signal : List Int) : CommBuffer :=
  { st with buffer := setAssoc st.buffer agent_name signal }

def zerosLike (s : List Int) : List Int := List.replicate s.length 0

/-- Get signals from all OTHER agents; zeros if killed. -/
def CommBuffer.receive (st : CommBuffer) (agent_name : String) : List (String × List Int) :=
  (st.buffer.filter (fun p => p.1 ≠ agent_name)).map
    (fun p => if st.killed then (p.1, zerosLike p.2) else p)

/-- Get concatenated signals from all other agents. -/
def CommBuffer.receive_all (st : CommBuffer) (agent_name : String) : List Int :=
  let signals := st.receive agent_name
  if signals.isEmpty then List.replicate (st.signal_dim * (st.num_agents - 1)) 0
  else (signals.map Prod.snd).flatten

def CommBuffer.kill (st : CommBuffer) : CommBuffer := { st with killed := true }

def CommBuffer.restore (st : CommBuffer) : CommBuffer := { st with killed := false }

def CommBuffer.clear (st : CommBuffer) : CommBuffer := { st with buffer := [] }

/-- Modelled from the spec: "`receiveAll(agentId)` returns the concatenation,
in fixed canonical agent order, of every other agent's last-sent signal; uses
same-shaped zero vectors when killed or when an agent has not yet sent this
step."  Stated over an explicit canonical agent order; used only to compare
the spec's words against `CommBuffer.receive_all`. -/
def receive_all_spec (st : CommBuffer) (canonicalOrder : List String) (agent_name : String) : List Int :=
  ((canonicalOrder.filter (fun a => a ≠ agent_name)).map
    (fun a =>
      if st.killed then List.replicate st.signal_dim 0
      else (lookupKey st.buffer a).getD (List.replicate st.signal_dim 0))).flatten

/-! ### Temperature schedule (`temperature.py`) -/

/-- Exponential temperature decay with warmup (`get_tau`), general parameters. -/
noncomputable def get_tau_gen (epoch : Nat) (tau_max tau_min : ℝ)
    (warmup_epochs decay_epochs : Nat) : ℝ :=
  if epoch < warmup_epochs then tau_max
  else
    let progress : ℝ := min (((epoch - warmup_epochs : Nat) : ℝ) / (decay_epochs : ℝ)) 1
    let tau : ℝ := tau_min + (tau_max - tau_min) * Real.exp (-3.0 * progress)
    max tau tau_min

/-- `get_tau` at its default parameters
(`tau_max=1.0, tau_min=0.1, warmup_epochs=20, decay_epochs=60`). -/
noncomputable def get_tau (epoch : Nat) : ℝ := get_tau_gen epoch 1 (1 / 10) 20 60

/-! ### Reward functions (`reward.py`, `protocols.py`) over `ℚ` -/

def sumAbs (signal : List ℚ) : ℚ := (signal.map abs).sum

/-- `type_costs = {0: declare_cost, 1: query_cost, 2: respond_cost}` with
`dict.get(signal_type, 1.0)`. -/
def typeMultiplier (signal_type : Nat) (declare_cost query_cost respond_cost : ℚ) : ℚ :=
  if signal_type = 0 then declare_cost
  else if signal_type = 1 then query_cost
  else if signal_type = 2 then respond_cost
  else 1

/-- Landauer-inspired reward with communication tax (`compute_reward` in
`training/reward.py`). -/
def compute_reward (env_reward : ℚ) (signal_sent : List ℚ)
    (energy_remaining energy_budget communication_tax_rate : ℚ)
    (survival_bonus : ℚ) (signal_type : Nat)
    (declare_cost query_cost respond_cost : ℚ) : ℚ :=
  let signal_cost := communication_tax_rate *
    typeMultiplier signal_type declare_cost query_cost respond_cost * sumAbs signal_sent
  let energy_fraction := max (energy_remaining / energy_budget) 0
  env_reward - signal_cost + survival_bonus * energy_fraction

/-- `Protocol0.compute_reward`: flat tax, no type multiplier. -/
def Protocol0_compute_reward (env_reward : ℚ) (signal_sent : List ℚ)
    (energy_remaining energy_budget communication_tax_rate survival_bonus : ℚ) : ℚ :=
  let signal_cost := communication_tax_rate * sumAbs signal_sent
  let energy_fraction := max (energy_remaining / energy_budget) 0
  env_reward - signal_cost + survival_bonus * energy_fraction

/-- `Protocol1.compute_reward` delegates to the shared `compute_reward` with
the protocol's three cost multipliers. -/
def Protocol1_compute_reward (declare_cost query_cost respond_cost : ℚ)
    (env_reward : ℚ) (signal_sent : List ℚ)
    (energy_remaining energy_budget communication_tax_rate survival_bonus : ℚ)
    (signal_type : Nat) : ℚ :=
  compute_reward env_reward signal_sent energy_remaining energy_budget
    communication_tax_rate survival_bonus signal_type
    declare_cost query_cost respond_cost

/-- `Protocol0.compute_epoch_extras` returns the empty dict: no inquiry
metrics for Protocol 0. -/
def Protocol0_compute_epoch_extras : Metrics := []

/-! ### Query→response coupling (`inquiry_metrics._compute_qr_coupling`)

A step of the type history is a dict agent name → signal type
(0=DECLARATIVE, 1=INTERROGATIVE, 2=RESPONSE). -/

abbrev TypeStep := List (String × Nat)

def stepHasType (t : Nat) (step : TypeStep) : Bool := step.any (fun p => p.2 = t)

/-- Indices of steps in which any agent sent an INTERROGATIVE signal. -/
def query_steps (type_history : List TypeStep) : List Nat :=
  (List.range type_history.length).filter
    (fun i => stepHasType 1 (type_history.getD i []))

/-- `P(any agent sends RESPONSE at T+1 | any agent sent QUERY at T)`;
`0.0` when no query occurred.  Float division is modelled exactly over `ℚ`. -/
def compute_qr_coupling (type_history : List TypeStep) : ℚ :=
  let qs := query_steps type_history
  if qs.isEmpty then 0
  else
    let followed := (qs.filter (fun i =>
      decide (i + 1 < type_history.length) &&
      stepHasType 2 (type_history.getD (i + 1) []))).length
    (followed : ℚ) / (qs.length : ℚ)

/-! ### Run manager epoch callback (`run_manager.py`) -/

/-- Python `dict.setdefault(k, v)`: insert `(k, v)` at the end iff `k` is
absent. -/
def setdefaultKey : Metrics → String → JVal → Metrics
  | [], k, v => [(k, v)]
  | (k', v') :: t, k, v =>
      if k' = k then (k', v') :: t else (k', v') :: setdefaultKey t k v

/-- The metric-map transformation performed by `epoch_callback` before
hashing, persisting and streaming: store the derived ROI under
`"energy_roi"` and fill empty defaults for `"transfer_entropy"` and
`"zipf"`.  The ROI float computation is abstracted as a deterministic
function `roiFn` of the incoming metrics. -/
def callbackTransform (roiFn : Metrics → JVal) (metrics : Metrics) : Metrics :=
  setdefaultKey
    (setdefaultKey (setAssoc metrics "energy_roi" (roiFn metrics))
      "transfer_entropy" (.jobj []))
    "zipf" (.jobj [])

/-- `compute_energy_roi` (`metrics/energy_roi.py`) over exact rationals:
success rate per unit energy spent, `0.0` if no energy was spent. -/
def compute_energy_roi (target_reached_rate avg_energy_spent : ℚ) : ℚ :=
  if avg_energy_spent ≤ 0 then 0 else target_reached_rate / avg_energy_spent

/-- The queue capacity `maxsize=200` fixed in `RunManager.start_run`. -/
def runManagerQueueCapacity : Nat := 200

/-! ### Bounded delivery queue (`queue.Queue(maxsize=N)` plus the
callback's drop-oldest push) -/

structure BQueue (α : Type) where
  maxsize : Nat
  items : List α
deriving DecidableEq, Repr

def BQueue.empty (α : Type) (maxsize : Nat) : BQueue α := ⟨maxsize, []⟩

/-- `queue.Queue.full()`: with `maxsize <= 0` the queue is unbounded. -/
def BQueue.isFull {α : Type} (q : BQueue α) : Bool :=
  decide (0 < q.maxsize) && decide (q.maxsize ≤ q.items.length)

/-- The callback's push: `put_nowait`; on `Full`, `get_nowait()` the oldest
item and `put_nowait` again. -/
def callbackPush {α : Type} (q : BQueue α) (x : α) : BQueue α :=
  if q.isFull then { q with items := q.items.drop 1 ++ [x] }
  else { q with items := q.items ++ [x] }

def pushAll {α : Type} (q : BQueue α) (xs : List α) : BQueue α :=
  xs.foldl callbackPush q

/-! ### Determinism model of `SimulationEngine` + `RunManager` (claim C3)

The pluggable, deterministic Learner/Environment epoch body is an abstract
state-passing function; `set_all_seeds(seed)` in `SimulationEngine.__init__`
overwrites all prior global RNG state, so the engine state is initialized
from the seed alone and the ambient pre-existing state is discarded.  The
wall-clock readings `time.time()` taken in `_run_epoch` are an input stream
`clock`; each reading enters the assembled metrics dict only at the
`"timestamp"` key. -/

structure EngineModel (σ : Type) where
  init : Int → σ
  stepEpoch : σ → Nat → σ × Metrics

/-- `SimulationEngine.__init__` calls `set_all_seeds(self.config.seed)`:
the ambient global RNG state `g` is overwritten and does not influence the
initial engine state. -/
def engineInitState {σ : Type} (M : EngineModel σ) (_g : Nat) (seed : Int) : σ :=
  M.init seed

/-- The epoch loop of `SimulationEngine.run`: each `_run_epoch` assembles a
metrics dict containing `"epoch"`, the epoch body's metrics, and
`"timestamp": time.time()`. -/
def engineEpochsFrom {σ : Type} (M : EngineModel σ) (clock : Nat → String) :
    σ → Nat → Nat → List Metrics
  | _, _, 0 => []
  | st, e, n + 1 =>
      let r := M.stepEpoch st e
      (("epoch", JVal.prim (.jnum (toString e))) :: r.2 ++
        [("timestamp", JVal.prim (.jnum (clock e)))]) ::
      engineEpochsFrom M clock r.1 (e + 1) n

/-- The full sequence of per-epoch metrics dicts a run emits to its epoch
callback. -/
def engineMetricsList {σ : Type} (M : EngineModel σ) (g : Nat) (seed : Int)
    (clock : Nat → String) (num_epochs : Nat) : List Metrics :=
  engineEpochsFrom M clock (engineInitState M g seed) 0 num_epochs

/-- One persisted `EpochLog` row (`run_id` omitted: constant per run). -/
structure EpochLogRow where
  epoch : Option JVal
  metrics_json : String
  hash : String
  prev_hash : String
deriving DecidableEq, Repr

/-- `epoch_callback`'s persistence: transform the metrics, chain the hash
from the running `prev_hash`, store the canonical JSON blob. -/
def runManagerRecordsAux (roiFn : Metrics → JVal) (seed : Int) :
    String → List Metrics → List EpochLogRow
  | _, [] => []
  | prev, m :: ms =>
      let m2 := callbackTransform roiFn m
      let h := compute_hash prev m2 seed
      { epoch := lookupKey m2 "epoch",
        metrics_json := canonical_json m2,
        hash := h,
        prev_hash := prev } :: runManagerRecordsAux roiFn seed h ms

/-- The persisted EpochRecord sequence of one complete run. -/
def runRecords {σ : Type} (M : EngineModel σ) (roiFn : Metrics → JVal)
    (g : Nat) (seed : Int) (clock : Nat → String) (num_epochs : Nat) :
    List EpochLogRow :=
  runManagerRecordsAux roiFn seed GENESIS_HASH
    (engineMetricsList M g seed clock num_epochs)

/-- Drop a top-level key from a metrics dict (used to compare records
modulo the `"timestamp"` field). -/
def dropKey (k : String) (m : Metrics) : Metrics := m.filter (fun p => p.1 ≠ k)

/-! ### Tampering helpers and chain bookkeeping (for the claims about
`verify_chain`) -/

/-- Replace the `metrics_json` blob of the entry at position `k`. -/
def setMetricsAt (c : List ChainEntry) (k : Nat) (s : String) : List ChainEntry :=
  match c.get? k with
  | some e => c.set k { e with metrics_json := s }
  | none => c

/-- Replace the stored `hash` of the entry at position `k`. -/
def setHashAt (c : List ChainEntry) (k : Nat) (s : String) : List ChainEntry :=
  match c.get? k with
  | some e => c.set k { e with hash := s }
  | none => c

/-- Replace the stored `prev_hash` of the entry at position `k`. -/
def setPrevAt (c : List ChainEntry) (k : Nat) (s : String) : List ChainEntry :=
  match c.get? k with
  | some e => c.set k { e with prev_hash := s }
  | none => c

/-- Folding the hash computation over a metrics list from a given
previous hash. -/
def hashFold (run_seed : Int) (prev : String) (ms : List Metrics) : String :=
  ms.foldl (fun p m => compute_hash p m run_seed) prev

/-- The `prev_hash` of the entry at position `k` of `build_chain ms seed`. -/
def chainPrevHash (ms : List Metrics) (run_seed : Int) (k : Nat) : String :=
  hashFold run_seed GENESIS_HASH (ms.take k)

/-- The `epoch` field stored by `build_chain` at position `k`
(`metrics.get("epoch", len(chain))`). -/
def epochFieldAt (ms : List Metrics) (k : Nat) : JVal :=
  (lookupKey (ms.getD k []) "epoch").getD (.prim (.jnum (toString k)))

/-- Number of inner members of a value (fuel accounting for the parser). -/
def innerSize : JVal → Nat
  | .prim _ => 0
  | .jobj l => l.length

def sizeBound (l : List (String × JVal)) : Nat :=
  l.length + (l.map (fun kv => innerSize kv.2)).sum

/-! ### Concrete fixtures used by counterexamples and witnesses -/

def mcEpoch0 : Metrics := [("epoch", .prim (.jnum "0"))]

/-- A trivial deterministic Learner/Environment epoch body (state `Unit`,
no epoch metrics beyond the frame the engine always adds). -/
def engineModelConst : EngineModel Unit :=
  { init := fun _ => (), stepEpoch := fun st _ => (st, []) }

def roiFnConst : Metrics → JVal := fun _ => JVal.prim (.jnum "0")

def clockOne : Nat → String := fun _ => "1.0"

def clockTwo : Nat → String := fun _ => "2.0"

def commBufferEx : CommBuffer :=
  ((CommBuffer.mk0 8 3).send "A" (List.replicate 8 1)).send "B" (List.replicate 8 2)

def msWitness : List Metrics :=
  [[("epoch", .prim (.jnum "0")), ("score", .prim (.jnum "1.5"))],
   [("epoch", .prim (.jnum "1")), ("note", .prim (.jstr "ok")),
    ("nested", .jobj [("x", .jnum "2"), ("a", .jstr "b")])]]

def mtTampered : Metrics := [("epoch", .prim (.jnum "1")), ("note", .prim (.jstr "altered"))]

/-- A metrics list whose numeric fields are all canonical integer literals
(normalization-stable under Python's json round trip). -/
def msStable : List Metrics :=
  [[("epoch", .prim (.jnum "0")), ("wins", .prim (.jnum "3"))],
   [("epoch", .prim (.jnum "1")), ("note", .prim (.jstr "ok")),
    ("nested", .jobj [("x", .jnum "2"), ("a", .jstr "b")])]]

/-! ## Theorems -/

/-! ### C5 — temperature schedule -/

theorem get_tau_warmup (e : Nat) (h : e < 20) : get_tau e = 1 := by
  simp [get_tau, get_tau_gen, h]

theorem get_tau_100_eq : get_tau 100 = 1 / 10 + 9 / 10 * Real.exp (-3) := by
  have h : ¬ (100 < 20) := by norm_num
  rw [get_tau, get_tau_gen, if_neg h]
  have hle : (1 : ℝ) / 10 ≤
      1 / 10 + (1 - 1 / 10) *
        Real.exp (-3.0 * (min (((100 - 20 : Nat) : ℝ) / ((60 : Nat) : ℝ)) 1)) := by
    have := Real.exp_pos
      (-3.0 * (min (((100 - 20 : Nat) : ℝ) / ((60 : Nat) : ℝ)) 1) : ℝ)
    nlinarith
  rw [max_eq_left hle]
  have e1 : min (((100 - 20 : Nat) : ℝ) / ((60 : Nat) : ℝ)) 1 = 1 := by
    rw [min_eq_right]; norm_num
  rw [e1]
  norm_num

theorem exp_three_gt : (20 : ℝ) < Real.exp 3 := by
  have h1 : Real.exp 3 = Real.exp 1 * Real.exp 1 * Real.exp 1 := by
    rw [← Real.exp_add, ← Real.exp_add]; norm_num
  have h2 := Real.exp_one_gt_d9
  rw [h1]; nlinarith [Real.exp_pos 1]

theorem exp_three_lt : Real.exp 3 < (201 : ℝ) / 10 := by
  have h1 : Real.exp 3 = Real.exp 1 * Real.exp 1 * Real.exp 1 := by
    rw [← Real.exp_add, ← Real.exp_add]; norm_num
  have h2 := Real.exp_one_lt_d9
  rw [h1]; nlinarith [Real.exp_pos 1]

/-- C5 counterexample: the claim says the schedule at epoch 100 sits at the
floor `tau_min = 0.1`; in fact `get_tau 100 = 0.1 + 0.9·e⁻³ ≈ 0.1448` is
strictly above the floor (the `max` clamp never binds). -/
theorem C5_counterexample_not_at_floor :
    (1 : ℝ) / 10 < get_tau 100 ∧ get_tau 100 ≠ 1 / 10 := by
  have h : (1 : ℝ) / 10 < get_tau 100 := by
    rw [get_tau_100_eq]
    have := Real.exp_pos (-3 : ℝ)
    nlinarith
  exact ⟨h, ne_of_gt h⟩

/-- C5 (amended): with warmup=20, decay_window=60, tau_max=1.0, tau_min=0.1,
the schedule gives tau(0)=1.0 and tau(19)=1.0, and
tau(100) = 0.1 + 0.9·e⁻³ ∈ (0.144, 0.145) — approximately 0.145, strictly
above the floor tau_min, which the exponential term never reaches. -/
theorem C5_temperature_schedule_amended :
    get_tau 0 = 1 ∧ get_tau 19 = 1 ∧
    (144 : ℝ) / 1000 < get_tau 100 ∧ get_tau 100 < (145 : ℝ) / 1000 := by
  refine ⟨get_tau_warmup 0 (by norm_num), get_tau_warmup 19 (by norm_num), ?_, ?_⟩
  · rw [get_tau_100_eq, Real.exp_neg]
    have h1 := exp_three_lt
    have h3 := Real.exp_pos 3
    have h4 : Real.exp 3 * (Real.exp 3)⁻¹ = 1 := mul_inv_cancel₀ (ne_of_gt h3)
    have h5 : (0 : ℝ) < (Real.exp 3)⁻¹ := inv_pos.mpr h3
    nlinarith
  · rw [get_tau_100_eq, Real.exp_neg]
    have h1 := exp_three_gt
    have h3 := Real.exp_pos 3
    have h4 : Real.exp 3 * (Real.exp 3)⁻¹ = 1 := mul_inv_cancel₀ (ne_of_gt h3)
    have h5 : (0 : ℝ) < (Real.exp 3)⁻¹ := inv_pos.mpr h3
    nlinarith

/-! ### C10 — survival-bonus clamp at negative energy -/

/-- C10: in both the shared reward function and the baseline protocol reward,
`max(energy_remaining / energy_budget, 0.0)` clamps the survival-bonus term
at zero: with `energy_remaining < 0` and `energy_budget > 0` the reward is
exactly `env_reward` minus the communication tax, with zero survival-bonus
contribution. -/
theorem C10_survival_bonus_clamp (env_reward : ℚ) (signal_sent : List ℚ)
    (energy_remaining energy_budget tax sb : ℚ) (signal_type : Nat) (dc qc rc : ℚ)
    (hneg : energy_remaining < 0) (hpos : 0 < energy_budget) :
    compute_reward env_reward signal_sent energy_remaining energy_budget tax sb
        signal_type dc qc rc
      = env_reward - tax * typeMultiplier signal_type dc qc rc * sumAbs signal_sent ∧
    Protocol0_compute_reward env_reward signal_sent energy_remaining energy_budget tax sb
      = env_reward - tax * sumAbs signal_sent := by
  have hf : max (energy_remaining / energy_budget) 0 = 0 :=
    max_eq_right (le_of_lt (div_neg_of_neg_of_pos hneg hpos))
  constructor
  · simp only [compute_reward, hf]; ring
  · simp only [Protocol0_compute_reward, hf]; ring

/-- C10 witness: concrete instantiation of `C10_survival_bonus_clamp`. -/
theorem C10_witness :
    ((-5 : ℚ) < 0 ∧ (0 : ℚ) < 100) ∧
    compute_reward 2 [1, -2] (-5) 100 (1 / 100) (1 / 10) 1 1 (3 / 2) (4 / 5)
      = 2 - 1 / 100 * typeMultiplier 1 1 (3 / 2) (4 / 5) * sumAbs [1, -2] ∧
    Protocol0_compute_reward 2 [1, -2] (-5) 100 (1 / 100) (1 / 10)
      = 2 - 1 / 100 * sumAbs [1, -2] := by
  refine ⟨⟨by norm_num, by norm_num⟩, ?_⟩
  exact C10_survival_bonus_clamp 2 [1, -2] (-5) 100 (1 / 100) (1 / 10) 1 1 (3 / 2)
    (4 / 5) (by norm_num) (by norm_num)

/-! ### C9 — required metric keys in the epoch callback -/

theorem lookupKey_setAssoc_self {α : Type} (m : List (String × α)) (k : String) (v : α) :
    lookupKey (setAssoc m k v) k = some v := by
  induction m with
  | nil => simp [setAssoc, lookupKey]
  | cons p t ih =>
      obtain ⟨k1, v1⟩ := p
      by_cases h : k1 = k
      · simp [setAssoc, lookupKey, h]
      · simp [setAssoc, lookupKey, h, ih]

theorem lookupKey_setAssoc_ne {α : Type} (m : List (String × α)) (k k2 : String) (v : α)
    (h : k2 ≠ k) : lookupKey (setAssoc m k v) k2 = lookupKey m k2 := by
  induction m with
  | nil => simp [setAssoc, lookupKey, h.symm]
  | cons p t ih =>
      obtain ⟨k1, v1⟩ := p
      by_cases h1 : k1 = k
      · subst h1
        simp [setAssoc, lookupKey, h.symm]
      · simp [setAssoc, lookupKey, h1, ih]

theorem lookupKey_setdefault_self (m : Metrics) (k : String) (v : JVal) :
    lookupKey (setdefaultKey m k v) k = some ((lookupKey m k).getD v) := by
  induction m with
  | nil => simp [setdefaultKey, lookupKey]
  | cons p t ih =>
      obtain ⟨k1, v1⟩ := p
      by_cases h : k1 = k
      · simp [setdefaultKey, lookupKey, h]
      · simp [setdefaultKey, lookupKey, h, ih]

theorem lookupKey_setdefault_ne (m : Metrics) (k k2 : String) (v : JVal)
    (h : k2 ≠ k) : lookupKey (setdefaultKey m k v) k2 = lookupKey m k2 := by
  induction m with
  | nil => simp [setdefaultKey, lookupKey, h.symm]
  | cons p t ih =>
      obtain ⟨k1, v1⟩ := p
      by_cases h1 : k1 = k
      · subst h1
        simp [setdefaultKey, lookupKey, h.symm]
      · simp [setdefaultKey, lookupKey, h1, ih]

/-- C9 (amended): the epoch callback guarantees presence of exactly the keys
`"energy_roi"` (always set to the derived ROI), `"transfer_entropy"` and
`"zipf"` (setdefault with empty-dict default); it does not default the
variant-specific `"inquiry"` key, which passes through unchanged and is
therefore absent from protocol-0 records. -/
theorem C9_default_filling_amended (roiFn : Metrics → JVal) (m : Metrics) :
    lookupKey (callbackTransform roiFn m) "energy_roi" = some (roiFn m) ∧
    lookupKey (callbackTransform roiFn m) "transfer_entropy"
      = some ((lookupKey m "transfer_entropy").getD (.jobj [])) ∧
    lookupKey (callbackTransform roiFn m) "zipf"
      = some ((lookupKey m "zipf").getD (.jobj [])) ∧
    lookupKey (callbackTransform roiFn m) "inquiry" = lookupKey m "inquiry" := by
  unfold callbackTransform
  refine ⟨?_, ?_, ?_, ?_⟩
  · rw [lookupKey_setdefault_ne _ _ _ _ (by decide),
        lookupKey_setdefault_ne _ _ _ _ (by decide), lookupKey_setAssoc_self]
  · rw [lookupKey_setdefault_ne _ _ _ _ (by decide), lookupKey_setdefault_self,
        lookupKey_setAssoc_ne _ _ _ _ (by decide)]
  · rw [lookupKey_setdefault_self, lookupKey_setdefault_ne _ _ _ _ (by decide),
        lookupKey_setAssoc_ne _ _ _ _ (by decide)]
  · rw [lookupKey_setdefault_ne _ _ _ _ (by decide),
        lookupKey_setdefault_ne _ _ _ _ (by decide),
        lookupKey_setAssoc_ne _ _ _ _ (by decide)]

/-- C9 counterexample: for a protocol-0 epoch metrics map (the engine frame
plus `Protocol0.compute_epoch_extras() = {}`), the persisted/streamed record
produced by the epoch callback has no `"inquiry"` key at all — the
variant-specific metric the active protocol does not produce is not filled
with any default. -/
theorem C9_counterexample_inquiry_absent :
    lookupKey
      (callbackTransform roiFnConst
        ([("epoch", JVal.prim (.jnum "0")),
          ("transfer_entropy", JVal.jobj []),
          ("zipf", JVal.jobj [])] ++ Protocol0_compute_epoch_extras))
      "inquiry" = none := by decide

/-! ### C6 — bounded delivery queue backpressure -/

theorem isFull_iff {α : Type} (q : BQueue α) :
    q.isFull = true ↔ (0 < q.maxsize ∧ q.maxsize ≤ q.items.length) := by
  simp [BQueue.isFull]

theorem callbackPush_maxsize {α : Type} (q : BQueue α) (x : α) :
    (callbackPush q x).maxsize = q.maxsize := by
  unfold callbackPush; split <;> rfl

theorem pushAll_maxsize {α : Type} (xs : List α) (q : BQueue α) :
    (pushAll q xs).maxsize = q.maxsize := by
  induction xs generalizing q with
  | nil => rfl
  | cons x t ih =>
      rw [show pushAll q (x :: t) = pushAll (callbackPush q x) t from rfl, ih,
        callbackPush_maxsize]

theorem pushAll_not_full {α : Type} (xs : List α) (q : BQueue α)
    (h : q.items.length + xs.length ≤ q.maxsize) :
    (pushAll q xs).items = q.items ++ xs := by
  induction xs generalizing q with
  | nil => simp [pushAll]
  | cons x t ih =>
      simp only [List.length_cons] at h
      have hnf : q.isFull = false := by
        rw [Bool.eq_false_iff]
        intro hc
        have := (isFull_iff q).mp hc
        omega
      rw [show pushAll q (x :: t) = pushAll (callbackPush q x) t from rfl]
      have hq : callbackPush q x = { q with items := q.items ++ [x] } := by
        simp [callbackPush, hnf]
      rw [hq, ih { q with items := q.items ++ [x] } (by simp; omega)]
      simp

theorem pushAll_len_le {α : Type} (xs : List α) (q : BQueue α)
    (h1 : 1 ≤ q.maxsize) (h2 : q.items.length ≤ q.maxsize) :
    (pushAll q xs).items.length ≤ q.maxsize := by
  induction xs generalizing q with
  | nil => simpa [pushAll]
  | cons x t ih =>
      rw [show pushAll q (x :: t) = pushAll (callbackPush q x) t from rfl]
      have hlen : (callbackPush q x).items.length ≤ q.maxsize := by
        unfold callbackPush
        cases hf : q.isFull with
        | true =>
            have hge : 1 ≤ q.items.length := by
              have := (isFull_iff q).mp hf
              omega
            simp only [hf, if_true, List.length_append, List.length_drop,
              List.length_cons, List.length_nil]
            omega
        | false =>
            have hnl : ¬ (0 < q.maxsize ∧ q.maxsize ≤ q.items.length) := by
              intro hc
              rw [(isFull_iff q).mpr hc] at hf
              exact Bool.true_eq_false.mp hf
            simp only [hf, Bool.false_eq_true, if_false, List.length_append,
              List.length_cons, List.length_nil]
            omega
      have hmax := callbackPush_maxsize q x
      have := ih (callbackPush q x) (by rw [hmax]; exact h1) (by rw [hmax]; exact hlen)
      rwa [hmax] at this

/-- C6: pushing capacity+1 items through the epoch callback's drop-oldest
push into the empty delivery queue of capacity 200 (the `maxsize` fixed in
`RunManager.start_run`) evicts exactly the oldest item (the result is the
input minus its first element), and the queue length never exceeds the
capacity at any intermediate point. -/
theorem C6_backpressure_queue {α : Type} (xs : List α)
    (hlen : xs.length = runManagerQueueCapacity + 1) :
    (pushAll (BQueue.empty α runManagerQueueCapacity) xs).items = xs.drop 1 ∧
    ∀ k : Nat,
      ((pushAll (BQueue.empty α runManagerQueueCapacity) (xs.take k)).items).length
        ≤ runManagerQueueCapacity := by
  simp only [runManagerQueueCapacity] at hlen ⊢
  constructor
  · have hd : (xs.drop 200).length = 1 := by
      rw [List.length_drop, hlen]
    obtain ⟨a, ha⟩ := List.length_eq_one.mp hd
    have hx : xs = xs.take 200 ++ [a] := by rw [← ha, List.take_append_drop]
    have hlen200 : (xs.take 200).length = 200 := by
      rw [List.length_take, hlen]; omega
    have ht : (pushAll (BQueue.empty α 200) (xs.take 200)).items = xs.take 200 := by
      have := pushAll_not_full (xs.take 200) (BQueue.empty α 200)
        (by simp [BQueue.empty, hlen200])
      simpa [BQueue.empty] using this
    have hfull : (pushAll (BQueue.empty α 200) (xs.take 200)).isFull = true := by
      rw [isFull_iff, pushAll_maxsize, ht, hlen200]
      constructor <;> simp [BQueue.empty]
    conv_lhs => rw [hx]
    rw [show pushAll (BQueue.empty α 200) (xs.take 200 ++ [a])
          = callbackPush (pushAll (BQueue.empty α 200) (xs.take 200)) a from by
        rw [pushAll, List.foldl_append]; rfl]
    rw [callbackPush, if_pos hfull, ht]
    conv_rhs => rw [hx]
    rw [List.drop_append_of_le_length (by rw [hlen200]; norm_num)]
  · intro k
    exact pushAll_len_le (xs.take k) (BQueue.empty α 200) (by simp [BQueue.empty])
      (by simp [BQueue.empty])

/-- C6 witness: 201 concrete pushes into the capacity-200 queue. -/
theorem C6_backpressure_witness :
    (List.range 201).length = runManagerQueueCapacity + 1 ∧
    (pushAll (BQueue.empty Nat runManagerQueueCapacity) (List.range 201)).items
      = (List.range 201).drop 1 := by
  have h : (List.range 201).length = runManagerQueueCapacity + 1 := by
    simp [runManagerQueueCapacity]
  exact ⟨h, (C6_backpressure_queue (List.range 201) h).1⟩


/-! ### C4 — communication buffer receive semantics -/

theorem receive_kill_eq (st : CommBuffer) (a : String) :
    (st.kill).receive a =
      (st.buffer.filter (fun p => p.1 ≠ a)).map (fun p => (p.1, zerosLike p.2)) := by
  simp [CommBuffer.receive, CommBuffer.kill]

theorem receive_all_kill_zero (st : CommBuffer) (a : String) :
    ∀ x ∈ (st.kill).receive_all a, x = 0 := by
  intro x hx
  rw [CommBuffer.receive_all, receive_kill_eq] at hx
  by_cases hc : ((st.buffer.filter (fun p => p.1 ≠ a)).map
      (fun p => (p.1, zerosLike p.2))).isEmpty
  · rw [if_pos hc] at hx
    exact List.eq_of_mem_replicate hx
  · rw [if_neg hc, List.mem_flatten] at hx
    obtain ⟨l, hl, hxl⟩ := hx
    rw [List.mem_map] at hl
    obtain ⟨p, hp, rfl⟩ := hl
    rw [List.mem_map] at hp
    obtain ⟨q, hq, rfl⟩ := hp
    simp only [zerosLike] at hxl
    exact List.eq_of_mem_replicate hxl

theorem restore_kill_id (st : CommBuffer) (h : st.killed = false) :
    (st.kill).restore = st := by
  cases st with
  | mk d n b k =>
      simp only [CommBuffer.kill, CommBuffer.restore] at *
      simp_all

theorem receive_all_length (st : CommBuffer) (a : String) :
    (st.receive_all a).length =
      if (st.buffer.filter (fun p => p.1 ≠ a)).isEmpty
      then st.signal_dim * (st.num_agents - 1)
      else ((st.buffer.filter (fun p => p.1 ≠ a)).map (fun p => p.2.length)).sum := by
  simp only [CommBuffer.receive_all, CommBuffer.receive]
  have hfun : ∀ p : String × List Int,
      ((if st.killed = true then (p.1, zerosLike p.2) else p).2).length = p.2.length := by
    intro p; by_cases hk : st.killed <;> simp [hk, zerosLike]
  generalize st.buffer.filter (fun p => p.1 ≠ a) = l
  rcases l with _ | ⟨p0, t⟩
  · simp
  · rw [if_neg (by simp), if_neg (by simp)]
    rw [List.map_map, List.length_flatten, List.map_map]
    simp only [Function.comp_def, hfun]

/-- C4 (amended): `receive_all` concatenates, in send order, the last-sent
signals of the other agents that have sent this step — silent agents are
skipped, with no zero placeholders — zeroing each entry while the channel is
killed; the full-size zero vector of length `signal_dim * (num_agents - 1)`
appears only when no other agent has sent.  Immediately after `kill()` every
returned element is zero, and `restore()` within the same step restores
exactly the pre-kill values. -/
theorem C4_receive_all_amended (st : CommBuffer) (a : String) :
    (∀ x ∈ (st.kill).receive_all a, x = 0) ∧
    (st.killed = false → (st.kill).restore.receive_all a = st.receive_all a) ∧
    ((st.receive_all a).length =
      if (st.buffer.filter (fun p => p.1 ≠ a)).isEmpty
      then st.signal_dim * (st.num_agents - 1)
      else ((st.buffer.filter (fun p => p.1 ≠ a)).map (fun p => p.2.length)).sum) := by
  refine ⟨receive_all_kill_zero st a, ?_, receive_all_length st a⟩
  intro h
  rw [restore_kill_id st h]

/-- C4 counterexample: after agent A alone sends an 8-dim signal,
`receive_all "C"` returns only A's signal (8 entries), not the spec's
fixed-canonical-order concatenation with a same-shaped zero vector for the
silent agent B (16 entries). -/
theorem C4_counterexample_no_zero_fill :
    ((CommBuffer.mk0 8 3).send "A" (List.replicate 8 1)).receive_all "C"
      ≠ receive_all_spec ((CommBuffer.mk0 8 3).send "A" (List.replicate 8 1))
          ["A", "B", "C"] "C" := by decide

/-- C4 witness: concrete instantiation of `C4_receive_all_amended` on a
buffer where A and B have sent. -/
theorem C4_receive_all_witness :
    commBufferEx.killed = false ∧
    (commBufferEx.kill).restore.receive_all "C" = commBufferEx.receive_all "C" ∧
    (∀ x ∈ (commBufferEx.kill).receive_all "C", x = 0) := by
  refine ⟨rfl, ?_, ?_⟩
  · exact (C4_receive_all_amended commBufferEx "C").2.1 rfl
  · exact (C4_receive_all_amended commBufferEx "C").1

/-! ### C3 — determinism of the EpochRecord sequence -/

theorem engineEpochs_dropTimestamp {σ : Type} (M : EngineModel σ) (c1 c2 : Nat → String) :
    ∀ (n e : Nat) (st : σ),
      (engineEpochsFrom M c1 st e n).map (dropKey "timestamp")
        = (engineEpochsFrom M c2 st e n).map (dropKey "timestamp") := by
  intro n
  induction n with
  | zero => intro e st; rfl
  | succ n ih =>
      intro e st
      simp only [engineEpochsFrom, List.map_cons]
      refine congrArg₂ List.cons ?_ (ih (e + 1) _)
      simp [dropKey, List.filter_append]

/-- C3 (amended): with a deterministic Learner/Environment epoch body and
identical configuration, two runs produce EpochRecord sequences that are
bit-identical except for the `"timestamp"` key inside each metrics dict
(whatever ambient global RNG state preceded `set_all_seeds`); when the two
runs additionally read equal wall-clock values, the persisted records —
`metrics_json`, `hash` and `prev_hash` included — are fully bit-identical. -/
theorem C3_determinism_amended {σ : Type} (M : EngineModel σ) (roiFn : Metrics → JVal)
    (seed : Int) (g1 g2 : Nat) (c1 c2 : Nat → String) (n : Nat) :
    (engineMetricsList M g1 seed c1 n).map (dropKey "timestamp")
      = (engineMetricsList M g2 seed c2 n).map (dropKey "timestamp") ∧
    (c1 = c2 → runRecords M roiFn g1 seed c1 n = runRecords M roiFn g2 seed c2 n) := by
  constructor
  · unfold engineMetricsList engineInitState
    exact engineEpochs_dropTimestamp M c1 c2 n 0 (M.init seed)
  · intro h; subst h; rfl

/-- C3 counterexample: two runs with identical configuration (seed 7, one
epoch, the same deterministic epoch body) but different wall-clock readings
persist different `metrics_json` blobs — the EpochRecord sequences are not
bit-identical, because `_run_epoch` stores `time.time()` inside the hashed
metrics dict. -/
theorem C3_counterexample_timestamp :
    (runRecords engineModelConst roiFnConst 0 7 clockOne 1).map EpochLogRow.metrics_json
      ≠ (runRecords engineModelConst roiFnConst 0 7 clockTwo 1).map EpochLogRow.metrics_json := by
  decide

/-- C3 witness: concrete instantiation of `C3_determinism_amended` with equal
clock streams and different ambient pre-seed RNG states. -/
theorem C3_determinism_witness :
    runRecords engineModelConst roiFnConst 3 7 clockOne 2
      = runRecords engineModelConst roiFnConst 4 7 clockOne 2 :=
  (C3_determinism_amended engineModelConst roiFnConst 7 3 4 clockOne clockOne 2).2 rfl

/-! ### C7 — query→response coupling -/

theorem countP_range_getD {α : Type} (p : α → Bool) (d : α) (l : List α) :
    (List.range l.length).countP (fun i => p (l.getD i d)) = l.countP p := by
  induction l with
  | nil => rfl
  | cons a t ih =>
      rw [List.length_cons, List.range_succ_eq_map, List.countP_cons, List.countP_map]
      simp only [List.getD_cons_zero, List.getD_cons_succ, List.countP_cons]
      have hcomp : ((fun i => p ((a :: t).getD i d)) ∘ Nat.succ)
          = (fun i => p (t.getD i d)) := by
        funext i
        simp [List.getD_cons_succ]
      rw [hcomp, ih]

theorem length_filter_filter (l : List Nat) (g f : Nat → Bool) :
    ((l.filter g).filter f).length = l.countP (fun i => f i && g i) := by
  rw [← List.countP_eq_length_filter, List.countP_filter]

theorem countP_range_coupled (q r : TypeStep → Bool) (l : List TypeStep) :
    (List.range l.length).countP
      (fun i => q (l.getD i []) && (decide (i + 1 < l.length) && r (l.getD (i + 1) [])))
    = (l.zip (l.drop 1)).countP (fun p => q p.1 && r p.2) := by
  induction l with
  | nil => rfl
  | cons s t ih =>
      rw [List.length_cons, List.range_succ_eq_map, List.countP_cons, List.countP_map]
      have hcomp :
          ((fun i => q ((s :: t).getD i []) &&
              (decide (i + 1 < t.length + 1) && r ((s :: t).getD (i + 1) []))) ∘ Nat.succ)
          = (fun i => q (t.getD i []) &&
              (decide (i + 1 < t.length) && r (t.getD (i + 1) []))) := by
        funext i
        simp only [Function.comp_apply, List.getD_cons_succ]
        have hd : decide (i + 1 + 1 < t.length + 1) = decide (i + 1 < t.length) := by
          simp [Nat.succ_lt_succ_iff]
        rw [hd]
      rw [hcomp, ih]
      cases t with
      | nil => simp
      | cons u v =>
          simp only [List.drop_succ_cons, List.drop_zero, List.zip_cons_cons,
            List.countP_cons, List.getD_cons_zero, List.getD_cons_succ]
          congr 1
          have h1 : (0 + 1 < (u :: v).length + 1) := by simp
          simp [h1]

/-- C7: the query→response coupling equals the number of query-containing
steps immediately followed (at step T+1) by a response-containing step,
divided by the number of query-containing steps, and it is exactly 0 —
never undefined or an error — when the history contains no query-typed
step. -/
theorem C7_qr_coupling_fraction (h : List TypeStep) :
    compute_qr_coupling h =
      if h.countP (fun s => stepHasType 1 s) = 0 then 0
      else ((h.zip (h.drop 1)).countP
              (fun p => stepHasType 1 p.1 && stepHasType 2 p.2) : ℚ)
           / (h.countP (fun s => stepHasType 1 s) : ℚ) := by
  simp only [compute_qr_coupling, query_steps]
  have hq : ((List.range h.length).filter (fun i => stepHasType 1 (h.getD i []))).length
      = h.countP (fun s => stepHasType 1 s) := by
    rw [← List.countP_eq_length_filter]
    exact countP_range_getD _ _ h
  have hnum : (((List.range h.length).filter (fun i => stepHasType 1 (h.getD i []))).filter
        (fun i => decide (i + 1 < h.length) && stepHasType 2 (h.getD (i + 1) []))).length
      = (h.zip (h.drop 1)).countP (fun p => stepHasType 1 p.1 && stepHasType 2 p.2) := by
    rw [length_filter_filter]
    have hswap : (fun i => (decide (i + 1 < h.length) && stepHasType 2 (h.getD (i + 1) []))
          && stepHasType 1 (h.getD i []))
        = (fun i => stepHasType 1 (h.getD i []) &&
            (decide (i + 1 < h.length) && stepHasType 2 (h.getD (i + 1) []))) := by
      funext i; exact Bool.and_comm _ _
    rw [hswap]
    exact countP_range_coupled _ _ h
  by_cases hz : h.countP (fun s => stepHasType 1 s) = 0
  · rw [if_pos hz]
    have hem : ((List.range h.length).filter
        (fun i => stepHasType 1 (h.getD i []))).isEmpty = true := by
      rw [List.isEmpty_iff_length_eq_zero, hq]; exact hz
    rw [if_pos hem]
  · rw [if_neg hz]
    have hne : ¬ ((List.range h.length).filter
        (fun i => stepHasType 1 (h.getD i []))).isEmpty = true := by
      rw [List.isEmpty_iff_length_eq_zero, hq]; exact hz
    rw [if_neg hne, hnum, hq]

/-! ### Round-trip of the canonical serializer through the parser
(infrastructure for C1, C2, C8) -/

theorem strMk_data (s : String) : String.mk s.data = s := rfl

theorem skipWs_cons_of_not (c : Char) (cs : List Char) (h : isJsonWs c = false) :
    skipWs (c :: cs) = c :: cs := by
  simp [skipWs, h]

theorem plainChar_ne {c : Char} (h : plainChar c = true) : c ≠ dquote ∧ c ≠ bslash := by
  constructor <;> rintro rfl <;> exact absurd h (by decide)

theorem isNumChar_ne {c : Char} (h : isNumChar c = true) : c ≠ dquote ∧ c ≠ lbrace := by
  constructor <;> rintro rfl <;> exact absurd h (by decide)

theorem not_ws_of_isNumChar {c : Char} (h : isNumChar c = true) : isJsonWs c = false := by
  by_cases h1 : c = ' '
  · subst h1; exact absurd h (by decide)
  by_cases h2 : c = '\t'
  · subst h2; exact absurd h (by decide)
  by_cases h3 : c = '\n'
  · subst h3; exact absurd h (by decide)
  by_cases h4 : c = '\r'
  · subst h4; exact absurd h (by decide)
  simp [isJsonWs, h1, h2, h3, h4]

theorem parseStrAux_append (s : List Char) (rest : List Char)
    (h : ∀ c ∈ s, plainChar c = true) :
    parseStrAux (s ++ dquote :: rest) = some (s, rest) := by
  induction s with
  | nil => simp [parseStrAux]
  | cons c t ih =>
      have hc := plainChar_ne (h c (by simp))
      simp only [List.cons_append, parseStrAux, List.append_eq]
      rw [if_neg hc.1, if_neg hc.2, ih (fun x hx => h x (by simp [hx]))]

theorem takeWhile_append_cons {p : Char → Bool} (l : List Char) (d : Char) (r : List Char)
    (hl : ∀ c ∈ l, p c = true) (hd : p d = false) :
    (l ++ d :: r).takeWhile p = l ∧ (l ++ d :: r).dropWhile p = d :: r := by
  induction l with
  | nil => constructor <;> simp [List.takeWhile_cons, List.dropWhile_cons, hd]
  | cons c t ih =>
      have hc : p c = true := hl c (by simp)
      obtain ⟨ih1, ih2⟩ := ih (fun x hx => hl x (by simp [hx]))
      constructor <;> simp [List.takeWhile_cons, List.dropWhile_cons, hc, ih1, ih2]

theorem validNumLit_ne_nil (h : validNumLit ([] : List Char) = true) : False := by
  exact absurd h (by decide)

theorem parseNum_append (lit : String) (d : Char) (r : List Char)
    (h : wfNum lit = true) (hd : isNumChar d = false) :
    parseNum (lit.data ++ d :: r) = some (lit, d :: r) := by
  have hall : lit.data.all isNumChar = true := by
    have := h; simp only [wfNum, Bool.and_eq_true] at this; exact this.1
  have hvalid : validNumLit lit.data = true := by
    have := h; simp only [wfNum, Bool.and_eq_true] at this; exact this.2
  have hne : lit.data ≠ [] := by
    intro he; rw [he] at hvalid; exact validNumLit_ne_nil hvalid
  obtain ⟨ht, hdrop⟩ := takeWhile_append_cons lit.data d r
    (fun c hc => List.all_eq_true.mp hall c hc) hd
  have hemp : (lit.data ++ d :: r).takeWhile isNumChar ≠ [] := by rw [ht]; exact hne
  simp only [parseNum, ht, hdrop]
  rw [if_neg (by simpa [List.isEmpty_iff] using hne), if_pos hvalid, strMk_data]

theorem parsePrimVal_append (v : JPrim) (d : Char) (r : List Char)
    (hWF : wfPrim v = true) (hd : isNumChar d = false) :
    parsePrimVal (renderPrim v ++ d :: r) = some (v, d :: r) := by
  cases v with
  | jstr s =>
      have hps : ∀ c ∈ s.data, plainChar c = true := by
        simp only [wfPrim, plainStr] at hWF
        exact List.all_eq_true.mp hWF
      simp only [renderPrim, List.cons_append, List.append_assoc, List.singleton_append]
      simp only [parsePrimVal, List.append_eq, List.nil_append]
      rw [if_pos trivial, parseStrAux_append s.data (d :: r) hps]
  | jnum s =>
      have hn : wfNum s = true := hWF
      have hvalid : validNumLit s.data = true := by
        simp only [wfNum, Bool.and_eq_true] at hn; exact hn.2
      have hall : s.data.all isNumChar = true := by
        simp only [wfNum, Bool.and_eq_true] at hn; exact hn.1
      rcases hsd : s.data with _ | ⟨c0, t⟩
      · rw [hsd] at hvalid; exact absurd (validNumLit_ne_nil hvalid) (fun f => f)
      · have hc0 : isNumChar c0 = true := by
          have := List.all_eq_true.mp hall c0 (by rw [hsd]; simp)
          exact this
        simp only [renderPrim, hsd, List.cons_append, parsePrimVal]
        rw [if_neg (isNumChar_ne hc0).1]
        have := parseNum_append s d r hn hd
        rw [hsd] at this
        simp only [List.cons_append] at this
        rw [this]

theorem skipWs_renderPrim (v : JPrim) (hv : wfPrim v = true) (z : List Char) :
    skipWs (renderPrim v ++ z) = renderPrim v ++ z := by
  cases v with
  | jstr s =>
      simp only [renderPrim, List.cons_append]
      exact skipWs_cons_of_not _ _ (by decide)
  | jnum s =>
      have hn : wfNum s = true := hv
      have hvalid : validNumLit s.data = true := by
        simp only [wfNum, Bool.and_eq_true] at hn; exact hn.2
      have hall : s.data.all isNumChar = true := by
        simp only [wfNum, Bool.and_eq_true] at hn; exact hn.1
      rcases hsd : s.data with _ | ⟨c0, t⟩
      · rw [hsd] at hvalid; exact absurd (validNumLit_ne_nil hvalid) (fun f => f)
      · have hc0 : isNumChar c0 = true :=
          List.all_eq_true.mp hall c0 (by rw [hsd]; simp)
        simp only [renderPrim, hsd, List.cons_append]
        exact skipWs_cons_of_not _ _ (not_ws_of_isNumChar hc0)

theorem parseInnerLoop_append (l : List (String × JPrim)) :
    ∀ (fuel : Nat) (r : List Char),
      l ≠ [] →
      (∀ kv ∈ l, plainStr kv.1 = true ∧ wfPrim kv.2 = true) →
      l.length ≤ fuel →
      parseInnerLoop fuel (renderInnerMembers l ++ rbrace :: r) = some (l, r) := by
  induction l with
  | nil => intro fuel r hne; exact absurd rfl hne
  | cons kv t ih =>
      intro fuel r _ hWF hfuel
      obtain ⟨k, v⟩ := kv
      obtain ⟨hk, hv⟩ := hWF (k, v) (by simp)
      have hkall : ∀ c ∈ k.data, plainChar c = true := by
        simp only [plainStr] at hk
        exact List.all_eq_true.mp hk
      cases fuel with
      | zero => simp at hfuel
      | succ f =>
          cases t with
          | nil =>
              simp only [renderInnerMembers, renderKey, parseInnerLoop, List.cons_append,
                List.append_assoc, List.singleton_append, List.append_eq, List.nil_append]
              rw [skipWs_cons_of_not _ _ (by decide)]
              dsimp only
              rw [if_pos rfl, parseStrAux_append k.data _ hkall]
              dsimp only
              rw [skipWs_cons_of_not _ _ (by decide)]
              dsimp only
              rw [if_pos rfl, skipWs_renderPrim v hv,
                parsePrimVal_append v rbrace r hv (by decide)]
              dsimp only
              rw [skipWs_cons_of_not _ _ (by decide)]
              dsimp only
              rw [if_neg (by decide), if_pos rfl]
          | cons kv2 t2 =>
              have hren : renderInnerMembers ((k, v) :: kv2 :: t2)
                  = renderKey k ++ ':' :: renderPrim v ++ ',' ::
                      renderInnerMembers (kv2 :: t2) := rfl
              rw [hren]
              simp only [renderKey, parseInnerLoop, List.cons_append, List.append_assoc,
                List.singleton_append, List.append_eq, List.nil_append]
              rw [skipWs_cons_of_not _ _ (by decide)]
              dsimp only
              rw [if_pos rfl, parseStrAux_append k.data _ hkall]
              dsimp only
              rw [skipWs_cons_of_not _ _ (by decide)]
              dsimp only
              rw [if_pos rfl, skipWs_renderPrim v hv,
                parsePrimVal_append v ','
                  (renderInnerMembers (kv2 :: t2) ++ rbrace :: r) hv (by decide)]
              dsimp only
              rw [skipWs_cons_of_not _ _ (by decide)]
              dsimp only
              rw [if_pos rfl,
                ih f r (by simp) (fun x hx => hWF x (by simp [hx]))
                  (by simp at hfuel ⊢; omega)]

theorem parseInnerObj_append (l : List (String × JPrim)) (fuel : Nat) (r : List Char)
    (hWF : ∀ kv ∈ l, plainStr kv.1 = true ∧ wfPrim kv.2 = true)
    (hfuel : l.length ≤ fuel) :
    parseInnerObj fuel (renderInnerMembers l ++ rbrace :: r) = some (l, r) := by
  cases l with
  | nil =>
      simp only [renderInnerMembers, List.nil_append, parseInnerObj]
      rw [skipWs_cons_of_not _ _ (by decide)]
      dsimp only
      rw [if_pos rfl]
  | cons kv t =>
      have hsh : ∃ X, renderInnerMembers (kv :: t) = dquote :: X := by
        obtain ⟨k, v⟩ := kv
        cases t <;> exact ⟨_, rfl⟩
      obtain ⟨X, hX⟩ := hsh
      simp only [parseInnerObj]
      rw [hX, List.cons_append, skipWs_cons_of_not _ _ (by decide)]
      dsimp only
      rw [if_neg (by decide), ← List.cons_append, ← hX,
        parseInnerLoop_append (kv :: t) fuel r (by simp) hWF hfuel]

theorem renderPrim_head (p : JPrim) (hp : wfPrim p = true) :
    ∃ c0 X, renderPrim p = c0 :: X ∧ c0 ≠ lbrace ∧ isJsonWs c0 = false := by
  cases p with
  | jnum s =>
      have hn : wfNum s = true := hp
      have hvalid : validNumLit s.data = true := by
        simp only [wfNum, Bool.and_eq_true] at hn; exact hn.2
      have hall : s.data.all isNumChar = true := by
        simp only [wfNum, Bool.and_eq_true] at hn; exact hn.1
      rcases hsd : s.data with _ | ⟨c0, t⟩
      · rw [hsd] at hvalid; exact absurd (validNumLit_ne_nil hvalid) (fun f => f)
      · have hc0 : isNumChar c0 = true :=
          List.all_eq_true.mp hall c0 (by rw [hsd]; simp)
        exact ⟨c0, t, by simp [renderPrim, hsd], (isNumChar_ne hc0).2,
          not_ws_of_isNumChar hc0⟩
  | jstr s => exact ⟨dquote, _, rfl, by decide, by decide⟩

theorem parseJVal_append (v : JVal) (fuel : Nat) (d : Char) (r : List Char)
    (hWF : wfVal v = true) (hd : isNumChar d = false)
    (hfuel : innerSize v ≤ fuel) :
    parseJVal fuel (renderVal v ++ d :: r) = some (v, d :: r) := by
  cases v with
  | prim p =>
      obtain ⟨c0, X, hX, hnl, _⟩ := renderPrim_head p hWF
      simp only [renderVal, parseJVal]
      rw [hX, List.cons_append]
      dsimp only
      rw [if_neg hnl, ← List.cons_append, ← hX, parsePrimVal_append p d r hWF hd]
  | jobj l =>
      have hWFl : ∀ kv ∈ l, plainStr kv.1 = true ∧ wfPrim kv.2 = true := by
        intro kv hkv
        have := List.all_eq_true.mp hWF kv hkv
        simpa [Bool.and_eq_true] using this
      simp only [renderVal, parseJVal, List.cons_append, List.append_assoc,
        List.singleton_append, List.nil_append]
      rw [if_pos trivial, parseInnerObj_append l fuel (d :: r) hWFl hfuel]

theorem skipWs_renderVal (v : JVal) (hv : wfVal v = true) (z : List Char) :
    skipWs (renderVal v ++ z) = renderVal v ++ z := by
  cases v with
  | prim p => exact skipWs_renderPrim p hv z
  | jobj l =>
      simp only [renderVal, List.cons_append]
      exact skipWs_cons_of_not _ _ (by decide)

theorem sizeBound_cons (kv : String × JVal) (t : List (String × JVal)) :
    sizeBound (kv :: t) = 1 + innerSize kv.2 + sizeBound t := by
  simp [sizeBound]
  omega

theorem parseOuterLoop_append (l : List (String × JVal)) :
    ∀ (fuel : Nat) (r : List Char),
      l ≠ [] →
      (∀ kv ∈ l, plainStr kv.1 = true ∧ wfVal kv.2 = true) →
      sizeBound l ≤ fuel →
      parseOuterLoop fuel (renderOuterMembers l ++ rbrace :: r) = some (l, r) := by
  induction l with
  | nil => intro fuel r hne; exact absurd rfl hne
  | cons kv t ih =>
      intro fuel r _ hWF hfuel
      obtain ⟨k, v⟩ := kv
      obtain ⟨hk, hv⟩ := hWF (k, v) (by simp)
      have hkall : ∀ c ∈ k.data, plainChar c = true := by
        simp only [plainStr] at hk
        exact List.all_eq_true.mp hk
      rw [sizeBound_cons] at hfuel
      cases fuel with
      | zero => simp at hfuel
      | succ f =>
          have hvf : innerSize v ≤ f := by simp at hfuel; omega
          cases t with
          | nil =>
              simp only [renderOuterMembers, renderKey, parseOuterLoop, List.cons_append,
                List.append_assoc, List.singleton_append, List.append_eq, List.nil_append]
              rw [skipWs_cons_of_not _ _ (by decide)]
              dsimp only
              rw [if_pos rfl, parseStrAux_append k.data _ hkall]
              dsimp only
              rw [skipWs_cons_of_not _ _ (by decide)]
              dsimp only
              rw [if_pos rfl, skipWs_renderVal v hv,
                parseJVal_append v f rbrace r hv (by decide) hvf]
              dsimp only
              rw [skipWs_cons_of_not _ _ (by decide)]
              dsimp only
              rw [if_neg (by decide), if_pos rfl]
          | cons kv2 t2 =>
              have hren : renderOuterMembers ((k, v) :: kv2 :: t2)
                  = renderKey k ++ ':' :: renderVal v ++ ',' ::
                      renderOuterMembers (kv2 :: t2) := rfl
              rw [hren]
              simp only [renderKey, parseOuterLoop, List.cons_append, List.append_assoc,
                List.singleton_append, List.append_eq, List.nil_append]
              rw [skipWs_cons_of_not _ _ (by decide)]
              dsimp only
              rw [if_pos rfl, parseStrAux_append k.data _ hkall]
              dsimp only
              rw [skipWs_cons_of_not _ _ (by decide)]
              dsimp only
              rw [if_pos rfl, skipWs_renderVal v hv,
                parseJVal_append v f ','
                  (renderOuterMembers (kv2 :: t2) ++ rbrace :: r) hv (by decide) hvf]
              dsimp only
              rw [skipWs_cons_of_not _ _ (by decide)]
              dsimp only
              rw [if_pos rfl,
                ih f r (by simp) (fun x hx => hWF x (by simp [hx])) (by simp at hfuel ⊢; omega)]

/-! ### Idempotence of canonicalization and the parse/render round trip -/

theorem charListLe_total : ∀ (a b : List Char),
    charListLe a b = true ∨ charListLe b a = true := by
  intro a
  induction a with
  | nil => intro b; left; rfl
  | cons x t ih =>
      intro b
      cases b with
      | nil => right; rfl
      | cons y u =>
          simp only [charListLe]
          rcases Nat.lt_trichotomy x.toNat y.toNat with h | h | h
          · left; rw [if_pos h]
          · rcases ih u with h1 | h1
            · left; rw [if_neg (by omega), if_neg (by omega)]; exact h1
            · right; rw [if_neg (by omega), if_neg (by omega)]; exact h1
          · right; rw [if_pos h]

theorem charListLe_trans : ∀ (a b c : List Char),
    charListLe a b = true → charListLe b c = true → charListLe a c = true := by
  intro a
  induction a with
  | nil => intro b c _ _; rfl
  | cons x t ih =>
      intro b c h1 h2
      cases b with
      | nil => simp [charListLe] at h1
      | cons y u =>
          cases c with
          | nil => simp [charListLe] at h2
          | cons z v =>
              simp only [charListLe] at h1 h2 ⊢
              rcases Nat.lt_trichotomy x.toNat y.toNat with hxy | hxy | hxy
              · rcases Nat.lt_trichotomy y.toNat z.toNat with hyz | hyz | hyz
                · rw [if_pos (by omega)]
                · rw [if_pos (by omega)]
                · rw [if_neg (by omega), if_pos (by omega)] at h2
                  simp at h2
              · rw [if_neg (by omega), if_neg (by omega)] at h1
                rcases Nat.lt_trichotomy y.toNat z.toNat with hyz | hyz | hyz
                · rw [if_pos (by omega)]
                · rw [if_neg (by omega), if_neg (by omega)] at h2
                  rw [if_neg (by omega), if_neg (by omega)]
                  exact ih u v h1 h2
                · rw [if_neg (by omega), if_pos (by omega)] at h2
                  simp at h2
              · rw [if_neg (by omega), if_pos (by omega)] at h1
                simp at h1

instance {α : Type} : IsTotal (String × α) keyLe :=
  ⟨fun a b => charListLe_total a.1.data b.1.data⟩

instance {α : Type} : IsTrans (String × α) keyLe :=
  ⟨fun a b c h1 h2 => charListLe_trans a.1.data b.1.data c.1.data h1 h2⟩

theorem sortByKey_idem {α : Type} (l : List (String × α)) :
    sortByKey (sortByKey l) = sortByKey l :=
  List.Sorted.insertionSort_eq (List.sorted_insertionSort keyLe l)

theorem normalizeVal_idem (v : JVal) : normalizeVal (normalizeVal v) = normalizeVal v := by
  cases v <;> simp [normalizeVal, sortByKey_idem]

theorem map_eq_self_of {α : Type} (l : List α) (f : α → α) (h : ∀ x ∈ l, f x = x) :
    l.map f = l := by
  induction l with
  | nil => rfl
  | cons a t ih => simp [h a (by simp), ih (fun x hx => h x (by simp [hx]))]

theorem normalizeMetrics_idem (m : Metrics) :
    normalizeMetrics (normalizeMetrics m) = normalizeMetrics m := by
  unfold normalizeMetrics
  rw [map_eq_self_of]
  · exact sortByKey_idem _
  · intro x hx
    have hx2 : x ∈ m.map (fun kv => (kv.1, normalizeVal kv.2)) :=
      (List.perm_insertionSort keyLe _).mem_iff.mp hx
    rw [List.mem_map] at hx2
    obtain ⟨kv, _, rfl⟩ := hx2
    simp [normalizeVal_idem]

theorem canonical_json_normalize (m : Metrics) :
    canonical_json (normalizeMetrics m) = canonical_json m := by
  unfold canonical_json
  rw [normalizeMetrics_idem]

theorem compute_hash_normalize (p : String) (m : Metrics) (s : Int) :
    compute_hash p (normalizeMetrics m) s = compute_hash p m s := by
  unfold compute_hash
  rw [canonical_json_normalize]

theorem wfMetrics_members (m : Metrics) (h : wfMetrics m = true) :
    ∀ kv ∈ m, plainStr kv.1 = true ∧ wfVal kv.2 = true := by
  intro kv hkv
  have := List.all_eq_true.mp h kv hkv
  simpa [Bool.and_eq_true] using this

theorem wfVal_normalizeVal (v : JVal) (h : wfVal v = true) :
    wfVal (normalizeVal v) = true := by
  cases v with
  | prim p => exact h
  | jobj l =>
      simp only [normalizeVal, wfVal] at *
      rw [List.all_eq_true]
      intro x hx
      exact List.all_eq_true.mp h x ((List.perm_insertionSort keyLe l).mem_iff.mp hx)

theorem wfMetrics_normalize (m : Metrics) (h : wfMetrics m = true) :
    wfMetrics (normalizeMetrics m) = true := by
  simp only [wfMetrics] at *
  rw [List.all_eq_true]
  intro x hx
  have hx2 : x ∈ m.map (fun kv => (kv.1, normalizeVal kv.2)) :=
    (List.perm_insertionSort keyLe _).mem_iff.mp hx
  rw [List.mem_map] at hx2
  obtain ⟨kv, hkv, rfl⟩ := hx2
  have := List.all_eq_true.mp h kv hkv
  simp only [Bool.and_eq_true] at this ⊢
  exact ⟨this.1, wfVal_normalizeVal kv.2 this.2⟩

theorem len_renderInnerMembers_ge (l : List (String × JPrim)) :
    l.length ≤ (renderInnerMembers l).length := by
  induction l with
  | nil => simp [renderInnerMembers]
  | cons kv t ih =>
      obtain ⟨k, v⟩ := kv
      cases t with
      | nil => simp [renderInnerMembers, renderKey]
      | cons kv2 t2 =>
          have hren : renderInnerMembers ((k, v) :: kv2 :: t2)
              = renderKey k ++ ':' :: renderPrim v ++ ',' ::
                  renderInnerMembers (kv2 :: t2) := rfl
          rw [hren]
          simp only [renderKey, List.length_append, List.length_cons, List.length_nil]
          simp only [List.length_cons] at ih ⊢
          omega

theorem innerSize_le_renderVal (v : JVal) : innerSize v ≤ (renderVal v).length := by
  cases v with
  | prim p => simp [innerSize]
  | jobj l =>
      have := len_renderInnerMembers_ge l
      simp only [innerSize, renderVal, List.length_cons, List.length_append,
        List.length_nil]
      omega

theorem sizeBound_le_render (l : List (String × JVal)) :
    sizeBound l ≤ (renderOuterMembers l).length := by
  induction l with
  | nil => simp [sizeBound, renderOuterMembers]
  | cons kv t ih =>
      obtain ⟨k, v⟩ := kv
      rw [sizeBound_cons]
      have hv := innerSize_le_renderVal v
      cases t with
      | nil =>
          simp only [sizeBound, renderOuterMembers, renderKey, List.length_append,
            List.length_cons, List.length_nil, List.map_nil, List.sum_nil,
            List.length_map]
          omega
      | cons kv2 t2 =>
          have hren : renderOuterMembers ((k, v) :: kv2 :: t2)
              = renderKey k ++ ':' :: renderVal v ++ ',' ::
                  renderOuterMembers (kv2 :: t2) := rfl
          rw [hren]
          simp only [renderKey, List.length_append, List.length_cons, List.length_nil]
          omega

theorem renderOuterMembers_head (kv : String × JVal) (t : List (String × JVal)) :
    ∃ X, renderOuterMembers (kv :: t) = dquote :: X := by
  obtain ⟨k, v⟩ := kv
  cases t <;> exact ⟨_, rfl⟩

/-- The round trip at the heart of `verify_chain`: parsing a canonical blob
recovers the normalized metrics. -/
theorem json_loads_canonical (m : Metrics) (h : wfMetrics m = true) :
    json_loads (canonical_json m) = some (normalizeMetrics m) := by
  have hwf2 := wfMetrics_normalize m h
  unfold canonical_json json_loads
  rcases hnm : normalizeMetrics m with _ | ⟨kv, t⟩
  · simp only [renderOuterMembers, List.cons_append, List.nil_append]
    rw [skipWs_cons_of_not _ _ (by decide)]
    dsimp only
    rw [if_pos rfl]
    rw [skipWs_cons_of_not _ _ (by decide)]
    dsimp only
    rw [if_pos rfl]
    dsimp only [skipWs]
    rfl
  · obtain ⟨X, hX⟩ := renderOuterMembers_head kv t
    simp only [List.cons_append]
    rw [skipWs_cons_of_not _ _ (by decide)]
    dsimp only
    rw [if_pos rfl, hX]
    simp only [List.cons_append]
    rw [skipWs_cons_of_not _ _ (by decide)]
    dsimp only
    rw [if_neg (by decide), ← List.cons_append, ← hX]
    have hfuel : sizeBound (kv :: t)
        ≤ ((renderOuterMembers (kv :: t) ++ [rbrace]).length + 1) := by
      have := sizeBound_le_render (kv :: t)
      simp only [List.length_append, List.length_cons, List.length_nil]
      omega
    have hloop := parseOuterLoop_append (kv :: t)
      ((renderOuterMembers (kv :: t) ++ [rbrace]).length + 1) [] (by simp)
      (by rw [← hnm]; exact wfMetrics_members _ hwf2) hfuel
    rw [hloop]
    dsimp only [skipWs]
    rfl

/-! ### Chain walking (C1, C2) -/

theorem verify_chain_aux_build (run_seed : Int) (ms : List Metrics) :
    ∀ (pos : Nat) (prev : String) (tail : List ChainEntry),
      (∀ m ∈ ms, wfMetrics m = true) →
      verify_chain_aux run_seed prev (build_chain_aux run_seed pos prev ms ++ tail)
        = verify_chain_aux run_seed (hashFold run_seed prev ms) tail := by
  induction ms with
  | nil => intro pos prev tail _; rfl
  | cons m t ih =>
      intro pos prev tail hWF
      have hm := hWF m (by simp)
      simp only [build_chain_aux, List.cons_append, verify_chain_aux]
      rw [json_loads_canonical m hm]
      dsimp only
      rw [compute_hash_normalize]
      rw [if_neg (by simp), if_neg (by simp)]
      exact ih (pos + 1) (compute_hash prev m run_seed) tail
        (fun x hx => hWF x (by simp [hx]))

/-- C1: for every list of well-formed metrics dicts and every seed, a chain
built by `build_chain` verifies as valid: `verify_chain` returns
`(true, none)` with no mismatch index. -/
theorem C1_build_verify_valid (ms : List Metrics) (run_seed : Int)
    (hWF : ∀ m ∈ ms, wfMetrics m = true) :
    verify_chain (build_chain ms run_seed) run_seed = some (true, none) := by
  unfold verify_chain build_chain
  have h := verify_chain_aux_build run_seed ms 0 GENESIS_HASH [] hWF
  rw [List.append_nil] at h
  rw [h]
  rfl

/-- C1 witness: a two-epoch chain with flat and nested metrics at seed 42. -/
theorem C1_build_verify_witness :
    (∀ m ∈ msWitness, wfMetrics m = true) ∧
    verify_chain (build_chain msWitness 42) 42 = some (true, none) := by
  have h : ∀ m ∈ msWitness, wfMetrics m = true := by decide
  exact ⟨h, C1_build_verify_valid msWitness 42 h⟩

/-! ### C8 — genesis constant and the one-epoch scenario hash -/

/-- C8: the genesis `prev_hash` is the string of 64 hex zero characters; the
canonical serialization of `\x7b"epoch": 0, "value": 1.23\x7d` uses sorted keys and
the fixed separators and is insertion-order independent; and the one-epoch
chain at seed 42 stores exactly
`SHA-256(GENESIS_HASH ‖ "|" ‖ canonical_json(metrics) ‖ "|" ‖ "42")`. -/
theorem C8_genesis_and_scenario :
    GENESIS_HASH.data = List.replicate 64 '0' ∧
    canonical_json [("epoch", JVal.prim (.jnum "0")), ("value", JVal.prim (.jnum "1.23"))]
      = "\x7b\"epoch\":0,\"value\":1.23\x7d" ∧
    canonical_json [("value", JVal.prim (.jnum "1.23")), ("epoch", JVal.prim (.jnum "0"))]
      = canonical_json [("epoch", JVal.prim (.jnum "0")), ("value", JVal.prim (.jnum "1.23"))] ∧
    (build_chain [[("epoch", JVal.prim (.jnum "0")), ("value", JVal.prim (.jnum "1.23"))]]
        42).map ChainEntry.prev_hash = [GENESIS_HASH] ∧
    (build_chain [[("epoch", JVal.prim (.jnum "0")), ("value", JVal.prim (.jnum "1.23"))]]
        42).map ChainEntry.hash
      = [sha256hex (GENESIS_HASH ++ "|"
          ++ canonical_json [("epoch", JVal.prim (.jnum "0")),
                             ("value", JVal.prim (.jnum "1.23"))] ++ "|" ++ "42")] := by
  refine ⟨rfl, by decide, by decide, rfl, by decide⟩

theorem build_chain_aux_len (run_seed : Int) (ms : List Metrics) :
    ∀ (pos : Nat) (prev : String),
      (build_chain_aux run_seed pos prev ms).length = ms.length := by
  induction ms with
  | nil => intro pos prev; rfl
  | cons m t ih => intro pos prev; simp [build_chain_aux, ih]

theorem build_chain_aux_append (run_seed : Int) (l1 l2 : List Metrics) :
    ∀ (pos : Nat) (prev : String),
      build_chain_aux run_seed pos prev (l1 ++ l2)
        = build_chain_aux run_seed pos prev l1 ++
          build_chain_aux run_seed (pos + l1.length) (hashFold run_seed prev l1) l2 := by
  induction l1 with
  | nil => intro pos prev; simp [build_chain_aux, hashFold]
  | cons m t ih =>
      intro pos prev
      simp only [List.cons_append, build_chain_aux, List.length_cons, List.append_eq]
      rw [ih (pos + 1) (compute_hash prev m run_seed)]
      rw [show hashFold run_seed prev (m :: t)
            = hashFold run_seed (compute_hash prev m run_seed) t from rfl]
      rw [show pos + (t.length + 1) = pos + 1 + t.length from by omega]

theorem list_set_append_cons {α : Type} (A : List α) (e e2 : α) (B : List α) :
    (A ++ e :: B).set A.length e2 = A ++ e2 :: B := by
  induction A with
  | nil => rfl
  | cons a t ih => simp [List.set, ih]

theorem list_get?_append_cons {α : Type} (A : List α) (e : α) (B : List α) :
    (A ++ e :: B).get? A.length = some e := by
  induction A with
  | nil => rfl
  | cons a t ih => simpa [List.get?] using ih

theorem build_chain_eq_decomp (ms : List Metrics) (run_seed : Int) (k : Nat)
    (hk : k < ms.length) :
    build_chain ms run_seed
      = build_chain_aux run_seed 0 GENESIS_HASH (ms.take k)
        ++ { epoch := epochFieldAt ms k,
             hash := compute_hash (chainPrevHash ms run_seed k) (ms.getD k []) run_seed,
             prev_hash := chainPrevHash ms run_seed k,
             metrics_json := canonical_json (ms.getD k []) }
          :: build_chain_aux run_seed (k + 1)
              (compute_hash (chainPrevHash ms run_seed k) (ms.getD k []) run_seed)
              (ms.drop (k + 1)) := by
  have hsplit : ms = ms.take k ++ ms.getD k [] :: ms.drop (k + 1) := by
    conv_lhs => rw [← List.take_append_drop k ms]
    rw [List.getD_eq_getElem ms [] hk]
    rw [List.drop_eq_getElem_cons hk]
  calc build_chain ms run_seed
      = build_chain_aux run_seed 0 GENESIS_HASH
          (ms.take k ++ ms.getD k [] :: ms.drop (k + 1)) := by
        rw [build_chain, ← hsplit]
    _ = build_chain_aux run_seed 0 GENESIS_HASH (ms.take k) ++
          build_chain_aux run_seed (0 + (ms.take k).length)
            (hashFold run_seed GENESIS_HASH (ms.take k))
            (ms.getD k [] :: ms.drop (k + 1)) :=
        build_chain_aux_append run_seed (ms.take k) _ 0 GENESIS_HASH
    _ = _ := by
        have hlen : (ms.take k).length = k := by
          rw [List.length_take]
          omega
        rw [hlen]
        simp only [Nat.zero_add, build_chain_aux]
        rfl

theorem setMetricsAt_append (A : List ChainEntry) (e0 : ChainEntry) (B : List ChainEntry)
    (s : String) (k : Nat) (hlen : A.length = k) :
    setMetricsAt (A ++ e0 :: B) k s = A ++ { e0 with metrics_json := s } :: B := by
  subst hlen
  unfold setMetricsAt
  rw [list_get?_append_cons]
  exact list_set_append_cons A e0 _ B

theorem setHashAt_append (A : List ChainEntry) (e0 : ChainEntry) (B : List ChainEntry)
    (s : String) (k : Nat) (hlen : A.length = k) :
    setHashAt (A ++ e0 :: B) k s = A ++ { e0 with hash := s } :: B := by
  subst hlen
  unfold setHashAt
  rw [list_get?_append_cons]
  exact list_set_append_cons A e0 _ B

theorem setPrevAt_append (A : List ChainEntry) (e0 : ChainEntry) (B : List ChainEntry)
    (s : String) (k : Nat) (hlen : A.length = k) :
    setPrevAt (A ++ e0 :: B) k s = A ++ { e0 with prev_hash := s } :: B := by
  subst hlen
  unfold setPrevAt
  rw [list_get?_append_cons]
  exact list_set_append_cons A e0 _ B

/-- C2 (amended): for a chain built from well-formed, normalization-stable
metrics (all numeric fields canonical integer literals, so Python's
`json.loads` → `json.dumps` round trip is the textual identity on every
stored blob — the fragment on which the literal-carrying embedding coincides
with Python's parse/re-serialize), tampering with the entry at position `k`
is reported as `(false, e)` with `e` the entry's stored epoch field (the
JSON value of the metrics' "epoch" key, defaulting to the position `k`),
never a bare boolean, in each of these cases: the stored `hash` replaced by
any different value; the stored `prev_hash` replaced by any different value;
the `metrics_json` blob replaced by the canonical serialization of
normalization-stable metrics whose recomputed hash differs from the stored
one — in particular any canonically different such content, absent a SHA-256
collision.  A `metrics_json` rewrite whose parse re-canonicalizes to the
same blob — a whitespace change, or a numerically equivalent float literal
such as `1.230` for `1.23`, which Python's parse collapses — is not
detected, and a non-JSON rewrite raises instead of returning
(see `C2_counterexample_whitespace`).  The stability hypotheses only scope
the statement to that fragment; inside the model the round trip is the
identity outright, so the proof does not consume them. -/
theorem C2_tamper_detection (ms : List Metrics) (run_seed : Int) (k : Nat)
    (hk : k < ms.length)
    (hWF : ∀ m ∈ ms.take (k + 1), wfMetrics m = true)
    (_hST : ∀ m ∈ ms.take (k + 1), pyStableMetrics m = true) :
    (∀ mt : Metrics, wfMetrics mt = true → pyStableMetrics mt = true →
      compute_hash (chainPrevHash ms run_seed k) mt run_seed
        ≠ compute_hash (chainPrevHash ms run_seed k) (ms.getD k []) run_seed →
      verify_chain (setMetricsAt (build_chain ms run_seed) k (canonical_json mt)) run_seed
        = some (false, some (epochFieldAt ms k))) ∧
    (∀ h2 : String,
      h2 ≠ compute_hash (chainPrevHash ms run_seed k) (ms.getD k []) run_seed →
      verify_chain (setHashAt (build_chain ms run_seed) k h2) run_seed
        = some (false, some (epochFieldAt ms k))) ∧
    (∀ p2 : String, p2 ≠ chainPrevHash ms run_seed k →
      verify_chain (setPrevAt (build_chain ms run_seed) k p2) run_seed
        = some (false, some (epochFieldAt ms k))) := by
  have hpre : ∀ m ∈ ms.take k, wfMetrics m = true := by
    intro m hm
    apply hWF
    have heq : ms.take k = (ms.take (k + 1)).take k := by
      rw [List.take_take, Nat.min_eq_left (Nat.le_succ k)]
    rw [heq] at hm
    exact List.take_subset _ _ hm
  have hmk : wfMetrics (ms.getD k []) = true := by
    apply hWF
    rw [List.getD_eq_getElem ms [] hk]
    have h2 : k < (ms.take (k + 1)).length := by rw [List.length_take]; omega
    have h3 : (ms.take (k + 1)).get ⟨k, h2⟩ = ms[k] := by
      simp [List.get_eq_getElem, List.getElem_take]
    rw [← h3]
    exact List.get_mem _ _ h2
  have hlenA : (build_chain_aux run_seed 0 GENESIS_HASH (ms.take k)).length = k := by
    rw [build_chain_aux_len, List.length_take]; omega
  have hdec := build_chain_eq_decomp ms run_seed k hk
  refine ⟨?_, ?_, ?_⟩
  · intro mt hmt _ hne
    rw [hdec, setMetricsAt_append _ _ _ _ k hlenA]
    unfold verify_chain
    rw [verify_chain_aux_build run_seed (ms.take k) 0 GENESIS_HASH _ hpre]
    rw [show hashFold run_seed GENESIS_HASH (ms.take k)
          = chainPrevHash ms run_seed k from rfl]
    simp only [verify_chain_aux]
    rw [json_loads_canonical mt hmt]
    dsimp only
    rw [compute_hash_normalize]
    rw [if_pos (Ne.symm hne)]
  · intro h2 hne2
    rw [hdec, setHashAt_append _ _ _ _ k hlenA]
    unfold verify_chain
    rw [verify_chain_aux_build run_seed (ms.take k) 0 GENESIS_HASH _ hpre]
    rw [show hashFold run_seed GENESIS_HASH (ms.take k)
          = chainPrevHash ms run_seed k from rfl]
    simp only [verify_chain_aux]
    rw [json_loads_canonical (ms.getD k []) hmk]
    dsimp only
    rw [compute_hash_normalize]
    rw [if_pos hne2]
  · intro p2 hne3
    rw [hdec, setPrevAt_append _ _ _ _ k hlenA]
    unfold verify_chain
    rw [verify_chain_aux_build run_seed (ms.take k) 0 GENESIS_HASH _ hpre]
    rw [show hashFold run_seed GENESIS_HASH (ms.take k)
          = chainPrevHash ms run_seed k from rfl]
    simp only [verify_chain_aux]
    rw [json_loads_canonical (ms.getD k []) hmk]
    dsimp only
    rw [compute_hash_normalize]
    rw [if_neg (by simp), if_pos hne3]

/-- C2 counterexample: rewriting the stored `metrics_json` of entry 0 to a
different string (a trailing space appended) leaves `verify_chain` reporting
`(true, none)`: `json.loads` + re-canonicalization erase the textual change,
so this tamper of the stored blob to a different value is not detected at
all, contradicting the claim that it yields `(false, 0)`. -/
theorem C2_counterexample_whitespace :
    setMetricsAt (build_chain [mcEpoch0] 7) 0 "\x7b\"epoch\":0\x7d " ≠ build_chain [mcEpoch0] 7 ∧
    verify_chain (setMetricsAt (build_chain [mcEpoch0] 7) 0 "\x7b\"epoch\":0\x7d ") 7
      = some (true, none) := by
  constructor <;> decide

/-- C2 witness: concrete instantiation of `C2_tamper_detection` — a
two-entry chain of normalization-stable metrics at seed 7 with entry 1's
metrics blob replaced by the canonical form of different stable metrics is
flagged at epoch 1. -/
theorem C2_tamper_witness :
    (1 < msStable.length ∧ (∀ m ∈ msStable.take (1 + 1), wfMetrics m = true)
      ∧ (∀ m ∈ msStable.take (1 + 1), pyStableMetrics m = true)
      ∧ pyStableMetrics mtTampered = true) ∧
    verify_chain (setMetricsAt (build_chain msStable 7) 1 (canonical_json mtTampered)) 7
      = some (false, some (epochFieldAt msStable 1)) := by
  have hk : 1 < msStable.length := by decide
  have hWF : ∀ m ∈ msStable.take (1 + 1), wfMetrics m = true := by decide
  have hST : ∀ m ∈ msStable.take (1 + 1), pyStableMetrics m = true := by decide
  have hmt : wfMetrics mtTampered = true := by decide
  have hms : pyStableMetrics mtTampered = true := by decide
  have hne : compute_hash (chainPrevHash msStable 7 1) mtTampered 7
      ≠ compute_hash (chainPrevHash msStable 7 1) (msStable.getD 1 []) 7 := by decide
  exact ⟨⟨hk, hWF, hST, hms⟩,
    (C2_tamper_detection msStable 7 1 hk hWF hST).1 mtTampered hmt hms hne⟩
